import Mathlib

/-!
Verification development for pybroom, a library converting fit-result
objects (scipy / lmfit) into tidy tables, walking nested list/dict
collections of such objects and injecting provenance ("path") columns.

The module `pybroom.py` itself is not part of the available sources (only
its documentation, README and example notebooks are), so the core data
model and operations below are modelled from the specification: scalar
cell values, tidy tables as ordered lists of rows, the schema-merging
policy (ordered first-seen column union, explicit absent marker), the
adapter registry over the three documented result kinds, the recursive
collection walker with depth-qualified path columns, and the
dict-to-table round-trip converters.
-/

namespace Pybroom

/-- Modelled from the spec: a scalar cell value of a tidy table.  The
distinguished `NA` constructor is the explicit "absent" marker used to
fill cells for columns a row lacks (never silently dropped). -/
inductive Value where
  | int : Int → Value
  | str : String → Value
  | bool : Bool → Value
  | NA : Value
deriving DecidableEq, Repr

/-- A row of a tidy table: an ordered association of column name to value. -/
abbrev Row := List (String × Value)

/-- Modelled from the spec: a tidy table, an ordered sequence of rows
(row order is insertion order and is significant). -/
abbrev Table := List Row

/-- The first value stored in a row under a column name, if any. -/
def getCell : Row → String → Option Value
  | [], _ => none
  | (n, v) :: r, c => if n = c then some v else getCell r c

/-- The ordered list of column names of a row. -/
def rowCols (r : Row) : List String :=
  r.map Prod.fst

/-- Modelled from the spec: ordered, first-seen union of column lists,
the schema-merging policy for heterogeneously-shaped tables. -/
def unionCols (as bs : List String) : List String :=
  as ++ bs.filter (fun b => ¬ b ∈ as)

/-- The ordered first-seen union of the column names of all rows of a table. -/
def tableCols (t : Table) : List String :=
  t.foldl (fun acc r => unionCols acc (rowCols r)) []

/-- Modelled from the spec: re-index a row to a given column list; each
column the row lacks is filled with the explicit absent marker. -/
def completeRow (cols : List String) (r : Row) : Row :=
  cols.map (fun c => (c, (getCell r c).getD Value.NA))

/-- The ordered first-seen union of the column sets of a list of tables. -/
def mergedCols (ts : List Table) : List String :=
  ts.foldl (fun acc t => unionCols acc (tableCols t)) []

/-- Modelled from the spec: `merge(tables)` concatenates an ordered
sequence of tables whose column sets may differ; output columns are the
ordered (first-seen) union of all input columns, row order is the
concatenation order, and each row gains the absent marker for any column
it lacks. -/
def merge (ts : List Table) : Table :=
  (ts.flatten).map (completeRow (mergedCols ts))

/-- Modelled from the spec: `dict_to_tidy(mapping)` produces one row per
entry, with the two columns `name` and `value`, in the mapping's
iteration order. -/
def dict_to_tidy (m : List (Value × Value)) : Table :=
  m.map (fun p => [("name", p.1), ("value", p.2)])

/-- The schema-mismatch condition of the dict/table round trip. -/
inductive SchemaError where
  | mismatch : SchemaError
deriving DecidableEq, Repr

/-- Reads one (name, value) entry out of a row, provided the row has
exactly the two expected columns in canonical order. -/
def rowEntry : Row → Option (Value × Value)
  | [(n1, k), (n2, v)] =>
      if n1 = "name" ∧ n2 = "value" then some (k, v) else none
  | _ => none

/-- Reads the (name, value) entries of all rows, provided every row has
exactly the two expected columns. -/
def rowsEntries : Table → Option (List (Value × Value))
  | [] => some []
  | r :: t =>
      match rowEntry r, rowsEntries t with
      | some p, some ps => some (p :: ps)
      | _, _ => none

/-- Modelled from the spec: `tidy_to_dict(table)` is the inverse of
`dict_to_tidy`; it requires exactly the two columns (name, value) and
unique names, and fails with a schema-mismatch condition otherwise. -/
def tidy_to_dict (t : Table) : Except SchemaError (List (Value × Value)) :=
  match rowsEntries t with
  | none => .error .mismatch
  | some prs =>
      if (prs.map Prod.fst).Nodup then .ok prs else .error .mismatch

/-- Modelled from the spec: the per-parameter record an adapter extracts
(name, fitted value, uncertainty if available, bounds, whether held
fixed, and — when derivable — initial value). -/
structure Param where
  pname : String
  value : Value
  stderr : Option Value
  pmin : Value
  pmax : Value
  vary : Bool
  init_value : Option Value
deriving DecidableEq, Repr

/-- Modelled from the spec: one per-data-point record of a model fit
(independent variable, observed value, best-fit value, residual, and one
column per named sub-component of a composite model). -/
structure Point where
  x : Value
  data : Value
  best_fit : Value
  residual : Value
  components : List (String × Value)
deriving DecidableEq, Repr

/-- Modelled from the spec: the read-only fields of a
`scipy.optimize.OptimizeResult` that the scipy adapter extracts. -/
structure ScipyResult where
  method : String
  num_iter : Int
  chisqr : Value
  success : Bool
  message : String
  params : List Param
deriving DecidableEq, Repr

/-- Modelled from the spec: the read-only fields of an
`lmfit.model.ModelResult` that the lmfit model adapter extracts; only
this kind carries per-data-point (pointwise) data. -/
structure ModelResult where
  method : String
  num_iter : Int
  chisqr : Value
  success : Bool
  message : String
  params : List Param
  points : List Point
deriving DecidableEq, Repr

/-- Modelled from the spec: the read-only fields of an
`lmfit.minimizer.MinimizerResult` that the lmfit minimizer adapter
extracts; it has no pointwise data (no independent variable). -/
structure MinimizerResult where
  method : String
  num_iter : Int
  chisqr : Value
  success : Bool
  message : String
  params : List Param
deriving DecidableEq, Repr

/-- Modelled from the spec: an opaque fit-result object; `unknown` stands
for any value matched by no registered adapter. -/
inductive ResultObj where
  | scipyOpt : ScipyResult → ResultObj
  | lmfitModel : ModelResult → ResultObj
  | lmfitMinimizer : MinimizerResult → ResultObj
  | unknown : String → ResultObj
deriving DecidableEq, Repr

/-- The single summary (glance) row: fit-level scalars. -/
def glanceRow (method : String) (num_iter : Int) (chisqr : Value)
    (success : Bool) (message : String) : Row :=
  [("method", Value.str method), ("num_iter", Value.int num_iter),
   ("chisqr", chisqr), ("success", Value.bool success),
   ("message", Value.str message)]

/-- One parameter row of the tidy (parameters) view. -/
def paramRow (p : Param) : Row :=
  [("name", Value.str p.pname), ("value", p.value),
   ("stderr", p.stderr.getD Value.NA), ("min", p.pmin), ("max", p.pmax),
   ("vary", Value.bool p.vary), ("init_value", p.init_value.getD Value.NA)]

/-- One per-data-point row of the augment (pointwise) view. -/
def pointRow (pt : Point) : Row :=
  [("x", pt.x), ("data", pt.data), ("best_fit", pt.best_fit),
   ("residual", pt.residual)] ++ pt.components

/-- Modelled from the spec: summary extraction for a scipy optimize result. -/
def glance_scipy_result (r : ScipyResult) : Table :=
  [glanceRow r.method r.num_iter r.chisqr r.success r.message]

/-- Modelled from the spec: per-parameter extraction for a scipy optimize result. -/
def tidy_scipy_result (r : ScipyResult) : Table :=
  r.params.map paramRow

/-- Modelled from the spec: summary extraction for an lmfit model result. -/
def glance_lmfit_model (r : ModelResult) : Table :=
  [glanceRow r.method r.num_iter r.chisqr r.success r.message]

/-- Modelled from the spec: per-parameter extraction for an lmfit model result. -/
def tidy_lmfit_model (r : ModelResult) : Table :=
  r.params.map paramRow

/-- Modelled from the spec: pointwise extraction for an lmfit model
result, the only kind exposing per-data-point data. -/
def augment_lmfit_modelresult (r : ModelResult) : Table :=
  r.points.map pointRow

/-- Modelled from the spec: summary extraction for an lmfit minimizer result. -/
def glance_lmfit_minimizer (r : MinimizerResult) : Table :=
  [glanceRow r.method r.num_iter r.chisqr r.success r.message]

/-- Modelled from the spec: per-parameter extraction for an lmfit minimizer result. -/
def tidy_lmfit_minimizer (r : MinimizerResult) : Table :=
  r.params.map paramRow

/-- Modelled from the spec: an adapter is a recognition predicate plus up
to three optional extraction operations (summary / parameters /
pointwise); a missing operation means the capability is absent for that
kind. -/
structure Adapter where
  recognize : ResultObj → Bool
  glanceOp : Option (ResultObj → Table)
  tidyOp : Option (ResultObj → Table)
  augmentOp : Option (ResultObj → Table)

/-- Modelled from the spec: the adapter for `scipy.optimize.OptimizeResult`
(summary and parameters; no pointwise data). -/
def scipyAdapter : Adapter where
  recognize := fun o => match o with | .scipyOpt _ => true | _ => false
  glanceOp := some fun o => match o with | .scipyOpt r => glance_scipy_result r | _ => []
  tidyOp := some fun o => match o with | .scipyOpt r => tidy_scipy_result r | _ => []
  augmentOp := none

/-- Modelled from the spec: the adapter for `lmfit.model.ModelResult`
(summary, parameters and pointwise). -/
def lmfitModelAdapter : Adapter where
  recognize := fun o => match o with | .lmfitModel _ => true | _ => false
  glanceOp := some fun o => match o with | .lmfitModel r => glance_lmfit_model r | _ => []
  tidyOp := some fun o => match o with | .lmfitModel r => tidy_lmfit_model r | _ => []
  augmentOp := some fun o => match o with | .lmfitModel r => augment_lmfit_modelresult r | _ => []

/-- Modelled from the spec: the adapter for `lmfit.minimizer.MinimizerResult`
(summary and parameters; no pointwise data). -/
def lmfitMinimizerAdapter : Adapter where
  recognize := fun o => match o with | .lmfitMinimizer _ => true | _ => false
  glanceOp := some fun o => match o with | .lmfitMinimizer r => glance_lmfit_minimizer r | _ => []
  tidyOp := some fun o => match o with | .lmfitMinimizer r => tidy_lmfit_minimizer r | _ => []
  augmentOp := none

/-- Modelled from the spec: the process-wide registry, holding exactly
the three documented result kinds, in registration order. -/
def pybroomRegistry : List Adapter :=
  [scipyAdapter, lmfitModelAdapter, lmfitMinimizerAdapter]

/-- Modelled from the spec: `resolve(obj)` scans registered adapters in
registration order and returns the first whose recognition predicate
matches, or nothing when no adapter matches. -/
def resolve (reg : List Adapter) (o : ResultObj) : Option Adapter :=
  reg.find? (fun a => a.recognize o)

/-- One of the three extraction views. -/
inductive View where
  | glance : View
  | tidy : View
  | augment : View
deriving DecidableEq, Repr

/-- The optional operation an adapter exposes for a view. -/
def viewOp (a : Adapter) : View → Option (ResultObj → Table)
  | .glance => a.glanceOp
  | .tidy => a.tidyOp
  | .augment => a.augmentOp

/-- The error conditions of a conversion: an unsupported leaf object
(payload: its path within the nested input), or a path-column name
colliding with an existing column (payload: the name and the path of the
level at which the collision was found). -/
inductive WalkError where
  | unsupportedKind : String → WalkError
  | pathCollision : String → String → WalkError
deriving DecidableEq, Repr

/-- Modelled from the spec: `extract(obj, view)` resolves the adapter and
dispatches to the requested view operation; an unmatched object is the
unsupported-kind condition (reported with the object's path), while an
absent capability yields zero rows and no error. -/
def extract (reg : List Adapter) (path : String) (o : ResultObj)
    (v : View) : Except WalkError Table :=
  match resolve reg o with
  | none => .error (.unsupportedKind path)
  | some a =>
      match viewOp a v with
      | none => .ok []
      | some f => .ok (f o)

mutual

/-- Modelled from the spec: a nested input — a leaf result object, an
ordered sequence of inputs, or a key-value mapping of inputs (keys kept
as values, in the mapping's iteration order). -/
inductive Input where
  | leaf : ResultObj → Input
  | seq : InputList → Input
  | map : KVList → Input

/-- The elements of a sequence input, in order. -/
inductive InputList where
  | nil : InputList
  | cons : Input → InputList → InputList

/-- The entries of a mapping input, in iteration order. -/
inductive KVList where
  | nil : KVList
  | cons : Value → Input → KVList → KVList

end

/-- Builds a sequence-element list from a plain list. -/
def InputList.ofList : List Input → InputList
  | [] => .nil
  | x :: xs => .cons x (InputList.ofList xs)

/-- Modelled from the spec: the name of the path column injected at a
given nesting depth.  The spec mandates depth-qualified names ("key" at
the outermost level, further qualified at deeper levels) without fixing
a rendering; depth is rendered as a suffix of depth markers after the
"key" stem. -/
def pathColName (depth : Nat) : String :=
  String.mk ('k' :: 'e' :: 'y' :: List.replicate depth '_')

/-- Renders a key for use inside an error path. -/
def keyStr : Value → String
  | .int i => i.repr
  | .str s => s
  | .bool b => toString b
  | .NA => "NA"

/-- The column union over the tables of an ordered (key, table) list. -/
def mergedColsOf (pairs : List (Value × Table)) : List String :=
  mergedCols (pairs.map Prod.snd)

/-- Modelled from the spec: merge the per-element tables of one nesting
level (ordered column union, absent-marker fill, concatenation row
order) and append the level's path column on the right, tagging each row
with the key of its originating element. -/
def tagAssemble (name : String) (pairs : List (Value × Table)) : Table :=
  (pairs.map (fun p =>
    p.2.map (fun r => completeRow (mergedColsOf pairs) r ++ [(name, p.1)]))).flatten

/-- Modelled from the spec: finishing one nesting level — a path-column
name colliding with a column of the merged table is an error condition,
never silently resolved by overwrite. -/
def finishLevel (depth : Nat) (path : String)
    (pairs : List (Value × Table)) : Except WalkError Table :=
  if pathColName depth ∈ mergedColsOf pairs then
    .error (.pathCollision (pathColName depth) path)
  else
    .ok (tagAssemble (pathColName depth) pairs)

mutual

/-- Modelled from the spec: `walk(input, view)` — recursive traversal of
a nested input: a leaf is extracted through the registry; a sequence or
mapping recursively walks each element, merges the results, and appends
the depth-qualified path column holding each row's originating position
(0-based index) or key (kept as-is). -/
def walk (reg : List Adapter) (depth : Nat) (path : String) (v : View) :
    Input → Except WalkError Table
  | .leaf o => extract reg path o v
  | .seq xs => do finishLevel depth path (← walkSeq reg depth path v 0 xs)
  | .map kvs => do finishLevel depth path (← walkMap reg depth path v kvs)

/-- Walks the elements of a sequence input from a starting index,
pairing each element's table with its 0-based position. -/
def walkSeq (reg : List Adapter) (depth : Nat) (path : String) (v : View)
    (i : Nat) : InputList → Except WalkError (List (Value × Table))
  | .nil => .ok []
  | .cons x xs => do
      let t ← walk reg (depth + 1) (path ++ "[" ++ Nat.repr i ++ "]") v x
      let rest ← walkSeq reg depth path v (i + 1) xs
      .ok ((Value.int i, t) :: rest)

/-- Walks the entries of a mapping input in iteration order, pairing
each entry's table with its key, kept as-is. -/
def walkMap (reg : List Adapter) (depth : Nat) (path : String) (v : View) :
    KVList → Except WalkError (List (Value × Table))
  | .nil => .ok []
  | .cons k x kvs => do
      let t ← walk reg (depth + 1) (path ++ "[" ++ keyStr k ++ "]") v x
      let rest ← walkMap reg depth path v kvs
      .ok ((k, t) :: rest)

end

/-- Modelled from the spec: the public summary view, `glance(input)`. -/
def glance (input : Input) : Except WalkError Table :=
  walk pybroomRegistry 0 "" View.glance input

/-- Modelled from the spec: the public per-parameter view, `tidy(input)`. -/
def tidy (input : Input) : Except WalkError Table :=
  walk pybroomRegistry 0 "" View.tidy input

/-- Modelled from the spec: the public per-data-point view, `augment(input)`. -/
def augment (input : Input) : Except WalkError Table :=
  walk pybroomRegistry 0 "" View.augment input

/-- Whether the registry matches an object. -/
def supportedObj (reg : List Adapter) (o : ResultObj) : Bool :=
  (resolve reg o).isSome

/-- The rows the matched adapter produces for a leaf object under a view
(zero rows when the object is unmatched or the capability is absent). -/
def leafRows (reg : List Adapter) (v : View) (o : ResultObj) : Table :=
  match resolve reg o with
  | none => []
  | some a =>
      match viewOp a v with
      | none => []
      | some f => f o

/-- Whether a column name is a path-column name (they all carry the
depth-qualified "key" stem). -/
def isPathCol (s : String) : Bool :=
  s.data.take 3 = ['k', 'e', 'y']

/-- The path cells of a row: its cells lying in path columns, in row order. -/
def pathCells (r : Row) : Row :=
  r.filter (fun p => isPathCol p.1)

/-- The number of distinct path-column value combinations of a table. -/
def distinctCombos (t : Table) : Nat :=
  (t.map pathCells).toFinset.card

/-- The keys of a mapping input, in iteration order. -/
def kvsKeys : KVList → List Value
  | .nil => []
  | .cons k _ kvs => k :: kvsKeys kvs

mutual

/-- The number of leaf result objects of a nested input. -/
def leafCount : Input → Nat
  | .leaf _ => 1
  | .seq xs => leafCountSeq xs
  | .map kvs => leafCountMap kvs

/-- The number of leaf result objects below a sequence. -/
def leafCountSeq : InputList → Nat
  | .nil => 0
  | .cons x xs => leafCount x + leafCountSeq xs

/-- The number of leaf result objects below a mapping. -/
def leafCountMap : KVList → Nat
  | .nil => 0
  | .cons _ x kvs => leafCount x + leafCountMap kvs

end

mutual

/-- The sum, over all leaf objects of a nested input, of the number of
rows the matched adapter produces for each object under a view. -/
def sumLeafRows (reg : List Adapter) (v : View) : Input → Nat
  | .leaf o => (leafRows reg v o).length
  | .seq xs => sumLeafRowsSeq reg v xs
  | .map kvs => sumLeafRowsMap reg v kvs

/-- Row-count sum below a sequence. -/
def sumLeafRowsSeq (reg : List Adapter) (v : View) : InputList → Nat
  | .nil => 0
  | .cons x xs => sumLeafRows reg v x + sumLeafRowsSeq reg v xs

/-- Row-count sum below a mapping. -/
def sumLeafRowsMap (reg : List Adapter) (v : View) : KVList → Nat
  | .nil => 0
  | .cons _ x kvs => sumLeafRows reg v x + sumLeafRowsMap reg v kvs

end

mutual

/-- The number of leaf objects of a nested input that contribute at
least one row under a view. -/
def contribLeaves (reg : List Adapter) (v : View) : Input → Nat
  | .leaf o => if (leafRows reg v o).length = 0 then 0 else 1
  | .seq xs => contribLeavesSeq reg v xs
  | .map kvs => contribLeavesMap reg v kvs

/-- Contributing-leaf count below a sequence. -/
def contribLeavesSeq (reg : List Adapter) (v : View) : InputList → Nat
  | .nil => 0
  | .cons x xs => contribLeaves reg v x + contribLeavesSeq reg v xs

/-- Contributing-leaf count below a mapping. -/
def contribLeavesMap (reg : List Adapter) (v : View) : KVList → Nat
  | .nil => 0
  | .cons _ x kvs => contribLeaves reg v x + contribLeavesMap reg v kvs

end

mutual

/-- Whether a nested input contains a leaf object matched by no
registered adapter. -/
def containsUnsupported (reg : List Adapter) : Input → Bool
  | .leaf o => ¬ supportedObj reg o
  | .seq xs => containsUnsupportedSeq reg xs
  | .map kvs => containsUnsupportedMap reg kvs

/-- Unsupported-leaf search below a sequence. -/
def containsUnsupportedSeq (reg : List Adapter) : InputList → Bool
  | .nil => false
  | .cons x xs => containsUnsupported reg x || containsUnsupportedSeq reg xs

/-- Unsupported-leaf search below a mapping. -/
def containsUnsupportedMap (reg : List Adapter) : KVList → Bool
  | .nil => false
  | .cons _ x kvs => containsUnsupported reg x || containsUnsupportedMap reg kvs

end

mutual

/-- The paths, within a nested input, of all leaf objects matched by no
registered adapter. -/
def unsupportedPaths (reg : List Adapter) (path : String) : Input → List String
  | .leaf o => if supportedObj reg o then [] else [path]
  | .seq xs => unsupportedPathsSeq reg path 0 xs
  | .map kvs => unsupportedPathsMap reg path kvs

/-- Unsupported-leaf paths below a sequence, from a starting index. -/
def unsupportedPathsSeq (reg : List Adapter) (path : String) (i : Nat) :
    InputList → List String
  | .nil => []
  | .cons x xs =>
      unsupportedPaths reg (path ++ "[" ++ Nat.repr i ++ "]") x ++
        unsupportedPathsSeq reg path (i + 1) xs

/-- Unsupported-leaf paths below a mapping. -/
def unsupportedPathsMap (reg : List Adapter) (path : String) :
    KVList → List String
  | .nil => []
  | .cons k x kvs =>
      unsupportedPaths reg (path ++ "[" ++ keyStr k ++ "]") x ++
        unsupportedPathsMap reg path kvs

end

/-- Whether a model result's per-point sub-component columns are benign:
no duplicate component names within a point, no component named like a
path column, and no component shadowing one of the four fixed pointwise
columns. -/
def cleanModel (m : ModelResult) : Bool :=
  m.points.all (fun pt =>
    (decide (pt.components.map Prod.fst).Nodup) &&
    pt.components.all (fun c =>
      ¬ isPathCol c.1 &&
      ¬ c.1 ∈ ["x", "data", "best_fit", "residual"]))

mutual

/-- Whether every model-result leaf of a nested input has benign
sub-component columns (free-form adapter columns are the only ones that
could shadow an injected path column). -/
def cleanInput : Input → Bool
  | .leaf (.lmfitModel m) => cleanModel m
  | .leaf _ => true
  | .seq xs => cleanInputSeq xs
  | .map kvs => cleanInputMap kvs

/-- Benign-column check below a sequence. -/
def cleanInputSeq : InputList → Bool
  | .nil => true
  | .cons x xs => cleanInput x && cleanInputSeq xs

/-- Benign-column check below a mapping. -/
def cleanInputMap : KVList → Bool
  | .nil => true
  | .cons _ x kvs => cleanInput x && cleanInputMap kvs

end

mutual

/-- Whether every mapping level of a nested input has pairwise-distinct
keys (the spec requires unique, hashable keys). -/
def wfInput : Input → Bool
  | .leaf _ => true
  | .seq xs => wfInputSeq xs
  | .map kvs => decide (kvsKeys kvs).Nodup && wfInputMap kvs

/-- Key-uniqueness check below a sequence. -/
def wfInputSeq : InputList → Bool
  | .nil => true
  | .cons x xs => wfInput x && wfInputSeq xs

/-- Key-uniqueness check below a mapping. -/
def wfInputMap : KVList → Bool
  | .nil => true
  | .cons _ x kvs => wfInput x && wfInputMap kvs

end

/-- A concrete scipy optimize result used in witnesses. -/
def fixtureScipy : ScipyResult :=
  { method := "leastsq", num_iter := 5, chisqr := Value.int 3,
    success := true, message := "ok",
    params := [{ pname := "a", value := .int 1, stderr := none,
                 pmin := .int 0, pmax := .int 9, vary := true,
                 init_value := some (.int 2) }] }

/-- A concrete lmfit model result (two data points) used in witnesses. -/
def fixtureModel : ModelResult :=
  { method := "leastsq", num_iter := 7, chisqr := Value.int 4,
    success := true, message := "ok", params := [],
    points := [{ x := .int 0, data := .int 1, best_fit := .int 1,
                 residual := .int 0, components := [] },
               { x := .int 1, data := .int 2, best_fit := .int 2,
                 residual := .int 0, components := [] }] }

/-- A concrete lmfit minimizer result used in witnesses. -/
def fixtureMinimizer : MinimizerResult :=
  { method := "nelder", num_iter := 3, chisqr := Value.int 8,
    success := true, message := "done", params := [] }

/-- A concrete lmfit model result one of whose pointwise sub-components
is named exactly like the outermost path column. -/
def fixtureCollide : ModelResult :=
  { method := "leastsq", num_iter := 2, chisqr := Value.int 1,
    success := true, message := "ok", params := [],
    points := [{ x := .int 0, data := .int 1, best_fit := .int 1,
                 residual := .int 0, components := [("key", .int 5)] }] }

/-- The fixed column names of a summary (glance) row. -/
def glanceCols : List String :=
  ["method", "num_iter", "chisqr", "success", "message"]

/-- The fixed column names of a parameter (tidy) row. -/
def tidyCols : List String :=
  ["name", "value", "stderr", "min", "max", "vary", "init_value"]

/-- The fixed column names of a pointwise (augment) row, before the
per-sub-component columns. -/
def pointFixedCols : List String :=
  ["x", "data", "best_fit", "residual"]

/-- Pairs a list of leaf objects with their 0-based positions (as path
column values) and their extracted tables. -/
def idxPairs (f : ResultObj → Table) (i : Nat) :
    List ResultObj → List (Value × Table)
  | [] => []
  | o :: objs => (Value.int i, f o) :: idxPairs f (i + 1) objs

/-- The merge-and-tag assembly of one nesting level, with the column
union passed explicitly ($tagAssemble$ instantiates it with the ordered
union of the level's tables). -/
def assembleWith (M : List String) (name : String)
    (pairs : List (Value × Table)) : Table :=
  (pairs.map (fun q =>
    q.2.map (fun r => completeRow M r ++ [(name, q.1)]))).flatten

/-- The path combination of a row after its table is re-indexed to the
column union of a level and tagged with that level's key. -/
def comboLift (M : List String) (name : String) (k : Value) (c : Row) : Row :=
  (M.filter (fun s => isPathCol s)).map
      (fun n => (n, (getCell c n).getD Value.NA))
    ++ [(name, k)]

/-- The provenance bookkeeping of a table: its rows have duplicate-free
columns and their path combinations form consecutive constant segments
— one per contributing leaf — with pairwise-distinct, positive-length,
uniformly-shaped combinations. -/
def tableOK (t : Table) (segs : List (Row × Nat)) : Prop :=
  (∀ r ∈ t, (rowCols r).Nodup)
  ∧ (segs.map Prod.fst).Nodup
  ∧ (∀ s ∈ segs, 0 < s.2)
  ∧ (∃ pcols, ∀ s ∈ segs, rowCols s.1 = pcols)
  ∧ t.map pathCells = segs.flatMap (fun s => List.replicate s.2 s.1)

/-- The declarative schema condition of `tidy_to_dict`: every row has
exactly the two expected columns (name, value), and the names are
pairwise distinct. -/
def goodSchema (t : Table) : Prop :=
  (∀ r ∈ t, rowCols r = ["name", "value"]) ∧
    (t.map (fun r => (getCell r "name").getD Value.NA)).Nodup

instance (t : Table) : Decidable (goodSchema t) := by
  unfold goodSchema
  infer_instance

end Pybroom

deriving instance DecidableEq for Except

namespace Pybroom

theorem getCell_eq_none {r : Row} {c : String} :
    getCell r c = none ↔ ¬ c ∈ rowCols r := by
  induction r with
  | nil => simp [getCell, rowCols]
  | cons p r ih =>
      obtain ⟨n, v⟩ := p
      simp only [getCell, rowCols, List.map_cons, List.mem_cons]
      by_cases h : n = c
      · subst h
        simp
      · rw [if_neg h]
        rw [show (List.map Prod.fst r) = rowCols r from rfl, ih]
        constructor
        · intro hn hor
          rcases hor with hor | hor
          · exact h hor.symm
          · exact hn hor
        · intro hn hc
          exact hn (Or.inr hc)

theorem mem_rowCols_of_getCell {r : Row} {c : String} {v : Value}
    (h : getCell r c = some v) : c ∈ rowCols r := by
  by_contra hc
  rw [← getCell_eq_none] at hc
  simp [h] at hc

theorem getCell_append_right {r1 : Row} (r2 : Row) {c : String}
    (h : ¬ c ∈ rowCols r1) : getCell (r1 ++ r2) c = getCell r2 c := by
  induction r1 with
  | nil => simp
  | cons p r1 ih =>
      obtain ⟨n, v⟩ := p
      simp only [rowCols, List.map_cons, List.mem_cons, not_or] at h
      have hn : ¬ n = c := fun e => h.1 e.symm
      rw [List.cons_append]
      show (if n = c then some v else getCell (r1 ++ r2) c) = getCell r2 c
      rw [if_neg hn]
      exact ih h.2

theorem getCell_append_left {r1 : Row} (r2 : Row) {c : String} {v : Value}
    (h : getCell r1 c = some v) : getCell (r1 ++ r2) c = some v := by
  induction r1 with
  | nil => simp [getCell] at h
  | cons p r1 ih =>
      obtain ⟨n, w⟩ := p
      by_cases hn : n = c
      · simp [getCell, hn] at h ⊢
        exact h
      · simp [getCell, hn] at h ⊢
        exact ih h

theorem rowCols_completeRow (cols : List String) (r : Row) :
    rowCols (completeRow cols r) = cols := by
  simp [rowCols, completeRow, List.map_map, Function.comp_def]

theorem getCell_completeRow (cols : List String) (r : Row) (c : String) :
    getCell (completeRow cols r) c =
      if c ∈ cols then some ((getCell r c).getD Value.NA) else none := by
  induction cols with
  | nil => simp [completeRow, getCell]
  | cons d cols ih =>
      by_cases h : d = c
      · subst h
        simp [completeRow, getCell]
      · simp only [completeRow, List.map_cons, getCell, h, if_false] at ih ⊢
        rw [ih, if_congr (show (c ∈ d :: cols) ↔ c ∈ cols by
          rw [List.mem_cons]
          constructor
          · rintro (e | e)
            · exact absurd e.symm h
            · exact e
          · exact Or.inr) rfl rfl]

theorem mem_unionCols {c : String} {as bs : List String} :
    c ∈ unionCols as bs ↔ c ∈ as ∨ c ∈ bs := by
  simp only [unionCols, List.mem_append, List.mem_filter, decide_eq_true_eq]
  constructor
  · rintro (h | ⟨h, _⟩) <;> [exact Or.inl h; exact Or.inr h]
  · rintro (h | h)
    · exact Or.inl h
    · by_cases ha : c ∈ as
      · exact Or.inl ha
      · exact Or.inr ⟨h, ha⟩

theorem unionCols_nil_left (bs : List String) : unionCols [] bs = bs := by
  simp [unionCols]

theorem unionCols_nil_right (as : List String) : unionCols as [] = as := by
  simp [unionCols]

theorem unionCols_eq_left {as bs : List String} (h : ∀ c ∈ bs, c ∈ as) :
    unionCols as bs = as := by
  have hf : bs.filter (fun b => ¬ b ∈ as) = [] := by
    rw [List.filter_eq_nil_iff]
    intro b hb
    simpa using h b hb
  unfold unionCols
  rw [hf, List.append_nil]

theorem unionCols_assoc (as bs cs : List String) :
    unionCols (unionCols as bs) cs = unionCols as (unionCols bs cs) := by
  simp only [unionCols, List.filter_append, List.filter_filter,
    List.append_assoc]
  congr 2
  apply List.filter_congr
  intro c _
  by_cases h1 : c ∈ as <;> by_cases h2 : c ∈ bs <;>
    simp [h1, h2, List.mem_append, List.mem_filter]

theorem foldl_unionCols {α : Type} (g : α → List String)
    (l : List α) (init : List String) :
    l.foldl (fun acc x => unionCols acc (g x)) init
      = unionCols init (l.foldl (fun acc x => unionCols acc (g x)) []) := by
  induction l generalizing init with
  | nil => simp [unionCols_nil_right]
  | cons x l ih =>
      simp only [List.foldl_cons]
      rw [ih, ih (unionCols [] (g x)), unionCols_nil_left, unionCols_assoc]

theorem tableCols_cons (r : Row) (t : Table) :
    tableCols (r :: t) = unionCols (rowCols r) (tableCols t) := by
  show List.foldl _ (unionCols [] (rowCols r)) t = _
  rw [foldl_unionCols rowCols t (unionCols [] (rowCols r)), unionCols_nil_left]
  rfl

theorem mem_tableCols {c : String} {t : Table} :
    c ∈ tableCols t ↔ ∃ r ∈ t, c ∈ rowCols r := by
  induction t with
  | nil => simp [tableCols]
  | cons r t ih => simp [tableCols_cons, mem_unionCols, ih]

theorem mem_tableCols_of_mem {c : String} {r : Row} {t : Table}
    (hr : r ∈ t) (hc : c ∈ rowCols r) : c ∈ tableCols t :=
  mem_tableCols.mpr ⟨r, hr, hc⟩

theorem mergedCols_cons (t : Table) (ts : List Table) :
    mergedCols (t :: ts) = unionCols (tableCols t) (mergedCols ts) := by
  show List.foldl _ (unionCols [] (tableCols t)) ts = _
  rw [foldl_unionCols tableCols ts (unionCols [] (tableCols t)),
    unionCols_nil_left]
  rfl

theorem mem_mergedCols {c : String} {ts : List Table} :
    c ∈ mergedCols ts ↔ ∃ t ∈ ts, c ∈ tableCols t := by
  induction ts with
  | nil => simp [mergedCols]
  | cons t ts ih => simp [mergedCols_cons, mem_unionCols, ih]

theorem tableCols_of_const {t : Table} {M : List String}
    (h : ∀ r ∈ t, rowCols r = M) (hne : t ≠ []) : tableCols t = M := by
  induction t with
  | nil => exact absurd rfl hne
  | cons r t ih =>
      rw [tableCols_cons, h r (by simp)]
      cases t with
      | nil => simp [tableCols, unionCols_nil_right]
      | cons r' t' =>
          rw [ih (fun x hx => h x (by simp [hx])) (by simp)]
          exact unionCols_eq_left (fun c hc => hc)

theorem mergedCols_of_all_nil {ts : List Table}
    (h : ∀ t ∈ ts, t = []) : mergedCols ts = [] := by
  induction ts with
  | nil => rfl
  | cons t ts ih =>
      rw [mergedCols_cons, h t (by simp), ih (fun x hx => h x (by simp [hx]))]
      rfl

theorem tableCols_merge (ts : List Table) :
    tableCols (merge ts) = mergedCols ts := by
  by_cases h : ts.flatten = []
  · have hall : ∀ t ∈ ts, t = [] := by
      intro t ht
      have := List.flatten_eq_nil_iff.mp h
      exact this t ht
    rw [mergedCols_of_all_nil hall]
    simp [merge, h, tableCols]
  · apply tableCols_of_const
    · intro r hr
      simp only [merge, List.mem_map] at hr
      obtain ⟨r', _, rfl⟩ := hr
      exact rowCols_completeRow _ _
    · intro hc
      have : ts.flatten = [] := by simpa [merge] using hc
      exact h this

theorem completeRow_congr {cols : List String} {r1 r2 : Row}
    (h : ∀ c ∈ cols,
      (getCell r1 c).getD Value.NA = (getCell r2 c).getD Value.NA) :
    completeRow cols r1 = completeRow cols r2 := by
  unfold completeRow
  apply List.map_congr_left
  intro c hc
  rw [h c hc]

theorem completeRow_completeRow {r : Row} {cs1 : List String}
    (h : ∀ c ∈ rowCols r, c ∈ cs1) (cs2 : List String) :
    completeRow cs2 (completeRow cs1 r) = completeRow cs2 r := by
  apply completeRow_congr
  intro c _
  rw [getCell_completeRow]
  by_cases hc : c ∈ cs1
  · simp [hc]
  · have hnone : getCell r c = none :=
      getCell_eq_none.mpr (fun hr => hc (h c hr))
    simp [hc, hnone]

theorem rowCols_subset_mergedCols {r : Row} {t : Table} {ts : List Table}
    (ht : t ∈ ts) (hr : r ∈ t) : ∀ c ∈ rowCols r, c ∈ mergedCols ts :=
  fun c hc => mem_mergedCols.mpr ⟨t, ht, mem_tableCols_of_mem hr hc⟩

theorem mergedCols_pair (X Y : Table) :
    mergedCols [X, Y] = unionCols (tableCols X) (tableCols Y) := by
  rw [mergedCols_cons, mergedCols_cons,
    show mergedCols ([] : List Table) = [] from rfl, unionCols_nil_right]

theorem merge_pair (X Y : Table) :
    merge [X, Y] = (X ++ Y).map (completeRow (mergedCols [X, Y])) := by
  simp [merge]

theorem map_completeRow_merge_pair (X Y : Table) (K : List String) :
    (merge [X, Y]).map (completeRow K) = (X ++ Y).map (completeRow K) := by
  rw [merge_pair, List.map_map]
  apply List.map_congr_left
  intro r hr
  show completeRow K (completeRow (mergedCols [X, Y]) r) = completeRow K r
  apply completeRow_completeRow
  intro c hc
  rcases List.mem_append.mp hr with h | h
  · exact rowCols_subset_mergedCols (by simp) h c hc
  · exact rowCols_subset_mergedCols (by simp) h c hc

theorem merge_assoc (A B C : Table) :
    merge [A, merge [B, C]] = merge [merge [A, B], C] := by
  have e1 : merge [A, merge [B, C]]
      = (A ++ (B ++ C)).map
          (completeRow (mergedCols [A, merge [B, C]])) := by
    rw [merge_pair A (merge [B, C]), List.map_append,
      map_completeRow_merge_pair, ← List.map_append]
  have e2 : merge [merge [A, B], C]
      = ((A ++ B) ++ C).map
          (completeRow (mergedCols [merge [A, B], C])) := by
    rw [merge_pair (merge [A, B]) C, List.map_append,
      map_completeRow_merge_pair, ← List.map_append]
  rw [e1, e2, List.append_assoc]
  congr 1
  rw [mergedCols_pair, mergedCols_pair, tableCols_merge, tableCols_merge,
    mergedCols_pair, mergedCols_pair, unionCols_assoc]

theorem merge_triple (A B C : Table) :
    merge [A, B, C] = (A ++ (B ++ C)).map (completeRow (mergedCols [A, B, C])) := by
  simp [merge]

theorem mergedCols_triple (A B C : Table) :
    mergedCols [A, B, C]
      = unionCols (tableCols A) (unionCols (tableCols B) (tableCols C)) := by
  rw [mergedCols_cons, mergedCols_pair]

theorem getCell_some_of_mem_rowCols {r : Row} {c : String}
    (hc : c ∈ rowCols r) : ∃ v, getCell r c = some v := by
  cases h : getCell r c with
  | none => exact absurd hc (getCell_eq_none.mp h)
  | some v => exact ⟨v, rfl⟩

theorem rowEntry_dict (k v : Value) :
    rowEntry [("name", k), ("value", v)] = some (k, v) := by
  simp [rowEntry]

theorem rowsEntries_dict (m : List (Value × Value)) :
    rowsEntries (dict_to_tidy m) = some m := by
  induction m with
  | nil => rfl
  | cons p m ih =>
      obtain ⟨k, v⟩ := p
      rw [show dict_to_tidy ((k, v) :: m)
          = [("name", k), ("value", v)] :: dict_to_tidy m from rfl]
      rw [rowsEntries, rowEntry_dict, ih]

theorem rowEntry_shape {r : Row} {p : Value × Value}
    (h : rowEntry r = some p) : r = [("name", p.1), ("value", p.2)] := by
  cases r with
  | nil => simp [rowEntry] at h
  | cons a r1 =>
      obtain ⟨n1, k⟩ := a
      cases r1 with
      | nil => simp [rowEntry] at h
      | cons b r2 =>
          obtain ⟨n2, v⟩ := b
          cases r2 with
          | nil =>
              simp only [rowEntry] at h
              split_ifs at h with hcond
              · obtain ⟨h1, h2⟩ := hcond
                cases h
                simp [h1, h2]
          | cons c r3 => simp [rowEntry] at h

theorem rowCols_two_shape {r : Row}
    (h : rowCols r = ["name", "value"]) :
    ∃ k v, r = [("name", k), ("value", v)] := by
  cases r with
  | nil => simp [rowCols] at h
  | cons a r1 =>
      obtain ⟨n1, k⟩ := a
      cases r1 with
      | nil => simp [rowCols] at h
      | cons b r2 =>
          obtain ⟨n2, v⟩ := b
          cases r2 with
          | nil =>
              simp only [rowCols, List.map_cons, List.map_nil,
                List.cons.injEq, and_true] at h
              exact ⟨k, v, by simp [h.1, h.2]⟩
          | cons c r3 => simp [rowCols] at h

theorem rowEntry_isSome_iff {r : Row} :
    (∃ p, rowEntry r = some p) ↔ rowCols r = ["name", "value"] := by
  constructor
  · rintro ⟨p, hp⟩
    rw [rowEntry_shape hp]
    rfl
  · intro h
    obtain ⟨k, v, rfl⟩ := rowCols_two_shape h
    exact ⟨(k, v), rowEntry_dict k v⟩

theorem rowsEntries_some {t : Table} {ps : List (Value × Value)}
    (h : rowsEntries t = some ps) :
    ps = t.map (fun r =>
      ((getCell r "name").getD Value.NA, (getCell r "value").getD Value.NA)) := by
  induction t generalizing ps with
  | nil =>
      rw [rowsEntries] at h
      cases h
      rfl
  | cons r t ih =>
      rw [rowsEntries] at h
      cases he : rowEntry r with
      | none => rw [he] at h; exact absurd h (by simp)
      | some p =>
          rw [he] at h
          cases hm : rowsEntries t with
          | none => rw [hm] at h; exact absurd h (by simp)
          | some qs =>
              rw [hm] at h
              cases h
              have hr := rowEntry_shape he
              subst hr
              rw [ih hm]
              simp [getCell]

theorem rowsEntries_isSome_iff {t : Table} :
    (∃ ps, rowsEntries t = some ps) ↔
      ∀ r ∈ t, rowCols r = ["name", "value"] := by
  induction t with
  | nil => simp [rowsEntries]
  | cons r t ih =>
      constructor
      · rintro ⟨ps, hps⟩
        rw [rowsEntries] at hps
        cases he : rowEntry r with
        | none => rw [he] at hps; exact absurd hps (by simp)
        | some p =>
            rw [he] at hps
            cases hm : rowsEntries t with
            | none => rw [hm] at hps; exact absurd hps (by simp)
            | some qs =>
                intro x hx
                rcases List.mem_cons.mp hx with hx | hx
                · subst hx
                  exact rowEntry_isSome_iff.mp ⟨p, he⟩
                · exact (ih.mp ⟨qs, hm⟩) x hx
      · intro h
        obtain ⟨p, hp⟩ := rowEntry_isSome_iff.mpr (h r (by simp))
        obtain ⟨qs, hqs⟩ := ih.mpr (fun x hx => h x (by simp [hx]))
        exact ⟨p :: qs, by rw [rowsEntries, hp, hqs]⟩

/-- C1: for every flat mapping with unique keys, the dict/table round
trip is the identity: `dict_to_tidy` produces one row per entry, with the
two columns (name, value) in the mapping's iteration order, and
`tidy_to_dict` inverts it exactly. -/
theorem dict_to_tidy_roundtrip (m : List (Value × Value))
    (h : (m.map Prod.fst).Nodup) :
    tidy_to_dict (dict_to_tidy m) = .ok m
    ∧ (dict_to_tidy m).length = m.length
    ∧ dict_to_tidy m = m.map (fun p => [("name", p.1), ("value", p.2)]) := by
  refine ⟨?_, by simp [dict_to_tidy], rfl⟩
  unfold tidy_to_dict
  rw [rowsEntries_dict]
  simp only
  rw [if_pos h]

/-- Closed instance of C1 at the mapping of the spec's example shape. -/
theorem dict_to_tidy_roundtrip_witness :
    tidy_to_dict (dict_to_tidy
        [(Value.str "x", Value.int 1), (Value.str "y", Value.str "2.5")])
      = .ok [(Value.str "x", Value.int 1), (Value.str "y", Value.str "2.5")]
    ∧ (dict_to_tidy
        [(Value.str "x", Value.int 1), (Value.str "y", Value.str "2.5")]).length
      = ([(Value.str "x", Value.int 1), (Value.str "y", Value.str "2.5")] :
          List (Value × Value)).length
    ∧ dict_to_tidy
        [(Value.str "x", Value.int 1), (Value.str "y", Value.str "2.5")]
      = [(Value.str "x", Value.int 1), (Value.str "y", Value.str "2.5")].map
          (fun p => [("name", p.1), ("value", p.2)]) :=
  dict_to_tidy_roundtrip _ (by decide)

/-- C2: merge is associative and order-preserving — the output column
set is the ordered first-seen union of the input column sets, the output
rows are the inputs' rows in concatenation order, every row keeps its
own values and gains the absent marker for each column it lacks, and no
row or column is dropped. -/
theorem merge_assoc_ordered_union (A B C : Table) :
    merge [A, merge [B, C]] = merge [merge [A, B], C]
    ∧ tableCols (merge [A, B, C])
        = unionCols (tableCols A) (unionCols (tableCols B) (tableCols C))
    ∧ (merge [A, B, C]).length = A.length + B.length + C.length
    ∧ merge [A, B, C]
        = (A ++ (B ++ C)).map (completeRow (mergedCols [A, B, C]))
    ∧ (∀ r ∈ A ++ (B ++ C), ∀ c ∈ tableCols (merge [A, B, C]),
        ¬ c ∈ rowCols r →
          getCell (completeRow (mergedCols [A, B, C]) r) c = some Value.NA)
    ∧ (∀ r ∈ A ++ (B ++ C), ∀ c ∈ rowCols r,
        getCell (completeRow (mergedCols [A, B, C]) r) c = getCell r c) := by
  refine ⟨merge_assoc A B C, ?_, ?_, merge_triple A B C, ?_, ?_⟩
  · rw [tableCols_merge, mergedCols_triple]
  · simp [merge, Nat.add_assoc]
  · intro r _ c hc hnc
    rw [getCell_completeRow,
      if_pos (by rwa [tableCols_merge] at hc),
      getCell_eq_none.mpr hnc]
    rfl
  · intro r hr c hc
    have hm : c ∈ mergedCols [A, B, C] := by
      rcases List.mem_append.mp hr with h | h
      · exact rowCols_subset_mergedCols (by simp) h c hc
      · rcases List.mem_append.mp h with h | h
        · exact rowCols_subset_mergedCols (by simp) h c hc
        · exact rowCols_subset_mergedCols (by simp) h c hc
    obtain ⟨v, hv⟩ := getCell_some_of_mem_rowCols hc
    rw [getCell_completeRow, if_pos hm, hv]
    rfl

/-- Closed instance of C2 at three concrete one-row tables with
pairwise different columns. -/
theorem merge_assoc_ordered_union_witness :
    merge [[[("a", Value.int 1)]],
        merge [[[("b", Value.int 2)]], [[("c", Value.int 3)]]]]
      = merge [merge [[[("a", Value.int 1)]], [[("b", Value.int 2)]]],
          [[("c", Value.int 3)]]]
    ∧ getCell (completeRow
        (mergedCols [[[("a", Value.int 1)]], [[("b", Value.int 2)]],
          [[("c", Value.int 3)]]]) [("a", Value.int 1)]) "b"
      = some Value.NA
    ∧ getCell (completeRow
        (mergedCols [[[("a", Value.int 1)]], [[("b", Value.int 2)]],
          [[("c", Value.int 3)]]]) [("a", Value.int 1)]) "a"
      = getCell [("a", Value.int 1)] "a" :=
  ⟨(merge_assoc_ordered_union [[("a", Value.int 1)]] [[("b", Value.int 2)]]
      [[("c", Value.int 3)]]).1,
   (merge_assoc_ordered_union [[("a", Value.int 1)]] [[("b", Value.int 2)]]
      [[("c", Value.int 3)]]).2.2.2.2.1 [("a", Value.int 1)] (by decide)
      "b" (by decide) (by decide),
   (merge_assoc_ordered_union [[("a", Value.int 1)]] [[("b", Value.int 2)]]
      [[("c", Value.int 3)]]).2.2.2.2.2 [("a", Value.int 1)] (by decide)
      "a" (by decide)⟩

/-- C8: `tidy_to_dict` fails with the schema-mismatch condition exactly
when the table does not have the two expected columns (name, value) in
every row or the names are not unique; on a well-schemed table it
returns the mapping from each name to its value, in row order. -/
theorem tidy_to_dict_schema_iff (t : Table) :
    ((∃ e, tidy_to_dict t = .error e) ↔ ¬ goodSchema t)
    ∧ (goodSchema t →
        tidy_to_dict t = .ok (t.map (fun r =>
          ((getCell r "name").getD Value.NA,
           (getCell r "value").getD Value.NA)))) := by
  have hkeys : ∀ ps, rowsEntries t = some ps →
      ps.map Prod.fst
        = t.map (fun r => (getCell r "name").getD Value.NA) := by
    intro ps hps
    rw [rowsEntries_some hps, List.map_map]
    rfl
  constructor
  · cases hm : rowsEntries t with
    | none =>
        have : ¬ ∀ r ∈ t, rowCols r = ["name", "value"] := by
          intro hall
          obtain ⟨ps, hps⟩ := rowsEntries_isSome_iff.mpr hall
          rw [hm] at hps
          cases hps
        constructor
        · intro _
          exact fun hg => this hg.1
        · intro _
          exact ⟨.mismatch, by unfold tidy_to_dict; rw [hm]⟩
    | some ps =>
        have hall : ∀ r ∈ t, rowCols r = ["name", "value"] :=
          rowsEntries_isSome_iff.mp ⟨ps, hm⟩
        have hk := hkeys ps hm
        constructor
        · rintro ⟨e, he⟩
          unfold tidy_to_dict at he
          rw [hm] at he
          have he' : (if (ps.map Prod.fst).Nodup then
              (Except.ok ps : Except SchemaError (List (Value × Value)))
              else .error .mismatch) = .error e := he
          by_cases hnd : (ps.map Prod.fst).Nodup
          · rw [if_pos hnd] at he'
            cases he'
          · intro hg
            rw [hk] at hnd
            exact hnd hg.2
        · intro hg
          have hnd : ¬ (ps.map Prod.fst).Nodup := by
            intro hnd
            rw [hk] at hnd
            exact hg ⟨hall, hnd⟩
          refine ⟨.mismatch, ?_⟩
          unfold tidy_to_dict
          rw [hm]
          show (if (ps.map Prod.fst).Nodup then
              (Except.ok ps : Except SchemaError (List (Value × Value)))
              else .error .mismatch) = _
          rw [if_neg hnd]
  · intro hg
    obtain ⟨ps, hm⟩ := rowsEntries_isSome_iff.mpr hg.1
    have hnd : (ps.map Prod.fst).Nodup := by
      rw [hkeys ps hm]
      exact hg.2
    unfold tidy_to_dict
    rw [hm]
    show (if (ps.map Prod.fst).Nodup then
        (Except.ok ps : Except SchemaError (List (Value × Value)))
        else .error .mismatch) = _
    rw [if_pos hnd, rowsEntries_some hm]

/-- Closed instance of C8: a one-column table is rejected, a two-column
(name, value) table with unique names is converted. -/
theorem tidy_to_dict_schema_iff_witness :
    (∃ e, tidy_to_dict [[("a", Value.int 0)]] = .error e)
    ∧ tidy_to_dict [[("name", Value.str "x"), ("value", Value.int 1)]]
        = .ok [(Value.str "x", Value.int 1)] :=
  ⟨(tidy_to_dict_schema_iff [[("a", Value.int 0)]]).1.mpr (by decide),
   ((tidy_to_dict_schema_iff
      [[("name", Value.str "x"), ("value", Value.int 1)]]).2
        (by decide)).trans (by decide)⟩

theorem pathColName_data (d : Nat) :
    (pathColName d).data = 'k' :: 'e' :: 'y' :: List.replicate d '_' := rfl

theorem pathColName_inj {d d' : Nat} (h : pathColName d = pathColName d') :
    d = d' := by
  have h2 := congrArg (fun s => s.data.length) h
  simp only [pathColName_data, List.length_cons, List.length_replicate] at h2
  omega

theorem isPathCol_pathColName (d : Nat) : isPathCol (pathColName d) = true := by
  simp [isPathCol, pathColName_data, List.take]

theorem pathColName_zero : pathColName 0 = "key" := by decide

theorem rowCols_append (r1 r2 : Row) :
    rowCols (r1 ++ r2) = rowCols r1 ++ rowCols r2 := by
  simp [rowCols]

theorem getCell_tag {M : List String} {r : Row} (name : String) (k : Value)
    (h : ¬ name ∈ M) :
    getCell (completeRow M r ++ [(name, k)]) name = some k := by
  rw [getCell_append_right _ (by rwa [rowCols_completeRow])]
  simp [getCell]

theorem tagAssemble_mem {name : String} {pairs : List (Value × Table)}
    {r : Row} (h : r ∈ tagAssemble name pairs) :
    ∃ q ∈ pairs, ∃ r0 ∈ q.2,
      r = completeRow (mergedColsOf pairs) r0 ++ [(name, q.1)] := by
  simp only [tagAssemble, List.mem_flatten, List.mem_map] at h
  obtain ⟨l, ⟨q, hq, rfl⟩, hr⟩ := h
  obtain ⟨r0, hr0, rfl⟩ := List.mem_map.mp hr
  exact ⟨q, hq, r0, hr0, rfl⟩

theorem tagAssemble_length (name : String) (pairs : List (Value × Table)) :
    (tagAssemble name pairs).length
      = (pairs.map (fun q => q.2.length)).sum := by
  simp [tagAssemble, Function.comp_def]

/-- C10: the registry recognizes exactly the three documented result
kinds — scipy OptimizeResult, lmfit ModelResult and lmfit
MinimizerResult — the pointwise (augment) capability is implemented only
for ModelResult, and a value of any other kind fails adapter resolution
with the unsupported-kind condition. -/
theorem registry_three_kinds :
    pybroomRegistry = [scipyAdapter, lmfitModelAdapter, lmfitMinimizerAdapter]
    ∧ (∀ r, resolve pybroomRegistry (.scipyOpt r) = some scipyAdapter)
    ∧ (∀ r, resolve pybroomRegistry (.lmfitModel r) = some lmfitModelAdapter)
    ∧ (∀ r, resolve pybroomRegistry (.lmfitMinimizer r)
        = some lmfitMinimizerAdapter)
    ∧ (∀ s, resolve pybroomRegistry (.unknown s) = none)
    ∧ scipyAdapter.augmentOp = none
    ∧ lmfitMinimizerAdapter.augmentOp = none
    ∧ (∃ f, lmfitModelAdapter.augmentOp = some f
        ∧ ∀ m, f (.lmfitModel m) = augment_lmfit_modelresult m)
    ∧ (∀ s path v, extract pybroomRegistry path (.unknown s) v
        = .error (.unsupportedKind path)) := by
  refine ⟨rfl, fun r => rfl, fun r => rfl, fun r => rfl, fun s => rfl,
    rfl, rfl, ⟨_, rfl, fun m => rfl⟩, fun s path v => rfl⟩

theorem extract_ok_of_supported {reg : List Adapter} {o : ResultObj}
    (p : String) (v : View) (h : supportedObj reg o = true) :
    extract reg p o v = .ok (leafRows reg v o) := by
  unfold supportedObj at h
  cases hres : resolve reg o with
  | none => rw [hres] at h; cases h
  | some a =>
      unfold extract leafRows
      rw [hres]
      show (match viewOp a v with
          | none => (Except.ok [] : Except WalkError Table)
          | some f => Except.ok (f o))
        = Except.ok (match viewOp a v with
          | none => []
          | some f => f o)
      cases hv : viewOp a v <;> rfl

theorem extract_error_of_unsupported {reg : List Adapter} {o : ResultObj}
    (p : String) (v : View) (h : supportedObj reg o = false) :
    extract reg p o v = .error (.unsupportedKind p) := by
  unfold supportedObj at h
  cases hres : resolve reg o with
  | none => unfold extract; rw [hres]
  | some a => rw [hres] at h; cases h

theorem walk_seq_eq (reg : List Adapter) (d : Nat) (p : String) (v : View)
    (xs : InputList) :
    walk reg d p v (.seq xs)
      = (walkSeq reg d p v 0 xs).bind (finishLevel d p) := rfl

theorem walk_map_eq (reg : List Adapter) (d : Nat) (p : String) (v : View)
    (kvs : KVList) :
    walk reg d p v (.map kvs)
      = (walkMap reg d p v kvs).bind (finishLevel d p) := rfl

theorem walk_seq_ok {reg : List Adapter} {d : Nat} {p : String} {v : View}
    {xs : InputList} {t : Table}
    (h : walk reg d p v (.seq xs) = .ok t) :
    ∃ pairs, walkSeq reg d p v 0 xs = .ok pairs
      ∧ ¬ pathColName d ∈ mergedColsOf pairs
      ∧ t = tagAssemble (pathColName d) pairs := by
  rw [walk_seq_eq] at h
  cases hw : walkSeq reg d p v 0 xs with
  | error e => rw [hw] at h; cases h
  | ok pairs =>
      rw [hw] at h
      have h2 : finishLevel d p pairs = .ok t := h
      unfold finishLevel at h2
      split_ifs at h2 with hname
      cases h2
      exact ⟨pairs, rfl, hname, rfl⟩

theorem walk_map_ok {reg : List Adapter} {d : Nat} {p : String} {v : View}
    {kvs : KVList} {t : Table}
    (h : walk reg d p v (.map kvs) = .ok t) :
    ∃ pairs, walkMap reg d p v kvs = .ok pairs
      ∧ ¬ pathColName d ∈ mergedColsOf pairs
      ∧ t = tagAssemble (pathColName d) pairs := by
  rw [walk_map_eq] at h
  cases hw : walkMap reg d p v kvs with
  | error e => rw [hw] at h; cases h
  | ok pairs =>
      rw [hw] at h
      have h2 : finishLevel d p pairs = .ok t := h
      unfold finishLevel at h2
      split_ifs at h2 with hname
      cases h2
      exact ⟨pairs, rfl, hname, rfl⟩

theorem walkMap_keys {reg : List Adapter} {d : Nat} {p : String} {v : View} :
    ∀ (kvs : KVList) {pairs : List (Value × Table)},
      walkMap reg d p v kvs = .ok pairs →
      pairs.map Prod.fst = kvsKeys kvs
  | .nil, pairs, h => by
      cases h
      rfl
  | .cons k x kvs, pairs, h => by
      rw [walkMap] at h
      cases hx : walk reg (d + 1) (p ++ "[" ++ keyStr k ++ "]") v x with
      | error e => rw [hx] at h; cases h
      | ok t =>
          rw [hx] at h
          cases hrest : walkMap reg d p v kvs with
          | error e => rw [hrest] at h; cases h
          | ok rest =>
              rw [hrest] at h
              cases h
              rw [kvsKeys, List.map_cons, walkMap_keys kvs hrest]

/-- C4: for every mapping input on which a view succeeds, the view
appends a path column whose value for every output row is the key of
the originating entry, kept as-is as a value (not coerced to string),
aligned to the rows produced from that entry's value, in the mapping's
iteration order. -/
theorem map_view_path_keys (kvs : KVList) (v : View) (t : Table)
    (h : walk pybroomRegistry 0 "" v (.map kvs) = .ok t) :
    ∃ pairs, walkMap pybroomRegistry 0 "" v kvs = .ok pairs
      ∧ pairs.map Prod.fst = kvsKeys kvs
      ∧ t = (pairs.map (fun q => q.2.map (fun r =>
            completeRow (mergedColsOf pairs) r ++ [(pathColName 0, q.1)]))).flatten
      ∧ (∀ q ∈ pairs, ∀ r ∈ q.2,
          getCell (completeRow (mergedColsOf pairs) r ++ [(pathColName 0, q.1)])
              (pathColName 0) = some q.1) := by
  obtain ⟨pairs, hw, hname, rfl⟩ := walk_map_ok h
  refine ⟨pairs, hw, walkMap_keys kvs hw, rfl, ?_⟩
  intro q _ r _
  exact getCell_tag _ _ hname

/-- Closed instance of C4 at a two-entry mapping with a string and an
integer key: the path cells hold the keys unchanged. -/
theorem map_view_path_keys_witness :
    ∃ pairs, walkMap pybroomRegistry 0 "" View.glance
        (.cons (Value.str "a") (.leaf (.lmfitMinimizer fixtureMinimizer))
          (.cons (Value.int 7) (.leaf (.lmfitMinimizer fixtureMinimizer)) .nil))
        = .ok pairs
      ∧ pairs.map Prod.fst = [Value.str "a", Value.int 7]
      ∧ [[("method", Value.str "nelder"), ("num_iter", Value.int 3),
          ("chisqr", Value.int 8), ("success", Value.bool true),
          ("message", Value.str "done"), ("key", Value.str "a")],
         [("method", Value.str "nelder"), ("num_iter", Value.int 3),
          ("chisqr", Value.int 8), ("success", Value.bool true),
          ("message", Value.str "done"), ("key", Value.int 7)]]
        = (pairs.map (fun q => q.2.map (fun r =>
            completeRow (mergedColsOf pairs) r ++ [(pathColName 0, q.1)]))).flatten := by
  obtain ⟨pairs, h1, h2, h3, _⟩ := map_view_path_keys
    (.cons (Value.str "a") (.leaf (.lmfitMinimizer fixtureMinimizer))
      (.cons (Value.int 7) (.leaf (.lmfitMinimizer fixtureMinimizer)) .nil))
    View.glance
    [[("method", Value.str "nelder"), ("num_iter", Value.int 3),
      ("chisqr", Value.int 8), ("success", Value.bool true),
      ("message", Value.str "done"), ("key", Value.str "a")],
     [("method", Value.str "nelder"), ("num_iter", Value.int 3),
      ("chisqr", Value.int 8), ("success", Value.bool true),
      ("message", Value.str "done"), ("key", Value.int 7)]]
    (by decide)
  exact ⟨pairs, h1, h2.trans (by decide), h3⟩

/-- C9: path columns injected at different nesting depths carry
pairwise-distinct, depth-disambiguated names; on success every row of a
container level ends with that level's own path column, whose name does
not occur among the row's other columns (so provenance is never
overwritten); a path-column name colliding with an adapter-produced
column is reported as an error. -/
theorem path_cols_depth_disambiguated :
    (∀ d d', pathColName d = pathColName d' → d = d')
    ∧ (∀ (reg : List Adapter) (d : Nat) (p : String) (v : View)
        (xs : InputList) (t : Table),
        walk reg d p v (.seq xs) = .ok t →
        ∀ r ∈ t, ∃ r' k, r = r' ++ [(pathColName d, k)]
          ∧ ¬ pathColName d ∈ rowCols r')
    ∧ (∀ (reg : List Adapter) (d : Nat) (p : String) (v : View)
        (kvs : KVList) (t : Table),
        walk reg d p v (.map kvs) = .ok t →
        ∀ r ∈ t, ∃ r' k, r = r' ++ [(pathColName d, k)]
          ∧ ¬ pathColName d ∈ rowCols r')
    ∧ augment (.seq (.cons (.leaf (.lmfitModel fixtureCollide)) .nil))
        = .error (.pathCollision (pathColName 0) "") := by
  refine ⟨fun d d' => pathColName_inj, ?_, ?_, by decide⟩
  · intro reg d p v xs t h r hr
    obtain ⟨pairs, _, hname, rfl⟩ := walk_seq_ok h
    obtain ⟨q, _, r0, _, rfl⟩ := tagAssemble_mem hr
    exact ⟨completeRow (mergedColsOf pairs) r0, q.1, rfl,
      by rwa [rowCols_completeRow]⟩
  · intro reg d p v kvs t h r hr
    obtain ⟨pairs, _, hname, rfl⟩ := walk_map_ok h
    obtain ⟨q, _, r0, _, rfl⟩ := tagAssemble_mem hr
    exact ⟨completeRow (mergedColsOf pairs) r0, q.1, rfl,
      by rwa [rowCols_completeRow]⟩

/-- Closed instance of C9: the outermost path column of a one-element
sequence result sits at the end of the row under a name distinct from
all others, and depths 0 and 1 get distinct names. -/
theorem path_cols_depth_disambiguated_witness :
    (pathColName 0 = pathColName 0 → (0 : Nat) = 0)
    ∧ ∃ r' k,
        [("method", Value.str "nelder"), ("num_iter", Value.int 3),
         ("chisqr", Value.int 8), ("success", Value.bool true),
         ("message", Value.str "done"), (pathColName 0, Value.int 0)]
          = r' ++ [(pathColName 0, k)]
        ∧ ¬ pathColName 0 ∈ rowCols r' :=
  ⟨fun h => path_cols_depth_disambiguated.1 0 0 h,
   path_cols_depth_disambiguated.2.1 pybroomRegistry 0 "" View.glance
     (.cons (.leaf (.lmfitMinimizer fixtureMinimizer)) .nil)
     [[("method", Value.str "nelder"), ("num_iter", Value.int 3),
       ("chisqr", Value.int 8), ("success", Value.bool true),
       ("message", Value.str "done"), ("key", Value.int 0)]]
     (by decide)
     [("method", Value.str "nelder"), ("num_iter", Value.int 3),
      ("chisqr", Value.int 8), ("success", Value.bool true),
      ("message", Value.str "done"), ("key", Value.int 0)]
     (by decide)⟩

theorem cleanModel_spec {m : ModelResult} (h : cleanModel m = true) :
    ∀ pt ∈ m.points, (pt.components.map Prod.fst).Nodup
      ∧ ∀ q ∈ pt.components,
          isPathCol q.1 = false ∧ ¬ q.1 ∈ pointFixedCols := by
  intro pt hpt
  unfold cleanModel at h
  rw [List.all_eq_true] at h
  have h2 := h pt hpt
  rw [Bool.and_eq_true, List.all_eq_true] at h2
  refine ⟨by simpa using h2.1, ?_⟩
  intro q hq
  have h3 := h2.2 q hq
  rw [Bool.and_eq_true] at h3
  constructor
  · have h5 := h3.1
    rw [decide_eq_true_eq] at h5
    cases hb : isPathCol q.1 with
    | false => rfl
    | true => exact absurd hb h5
  · have h6 := h3.2
    rw [decide_eq_true_eq] at h6
    simpa [pointFixedCols] using h6

theorem rowCols_pointRow (pt : Point) :
    rowCols (pointRow pt) = pointFixedCols ++ pt.components.map Prod.fst := by
  simp [pointRow, rowCols, pointFixedCols]

theorem augment_cols_benign {m : ModelResult} (h : cleanModel m = true) :
    ∀ c ∈ tableCols (augment_lmfit_modelresult m), isPathCol c = false := by
  intro c hc
  obtain ⟨r, hr, hcr⟩ := mem_tableCols.mp hc
  obtain ⟨pt, hpt, rfl⟩ := List.mem_map.mp hr
  rw [rowCols_pointRow] at hcr
  rcases List.mem_append.mp hcr with h4 | hcomp
  · rcases (by simpa [pointFixedCols] using h4 :
        c = "x" ∨ c = "data" ∨ c = "best_fit" ∨ c = "residual") with
      rfl | rfl | rfl | rfl <;> decide
  · obtain ⟨q, hq, rfl⟩ := List.mem_map.mp hcomp
    exact ((cleanModel_spec h pt hpt).2 q hq).1

/-- C5: a result object whose adapter does not implement the requested
view yields zero rows and no error; in a mixed-kind collection the
output contains rows only for the objects whose adapter implements the
view — for a [ModelResult, MinimizerResult] pair under the pointwise
view, every output row comes from the first element (path value 0) and
no row, error or absent-marker row appears for the second. -/
theorem capability_absent_empty :
    (∀ (reg : List Adapter) (path : String) (o : ResultObj) (v : View)
        (a : Adapter),
        resolve reg o = some a → viewOp a v = none →
        extract reg path o v = .ok [])
    ∧ (∀ (m : ModelResult) (mm : MinimizerResult),
        cleanModel m = true →
        ∃ t, augment (.seq (.cons (.leaf (.lmfitModel m))
              (.cons (.leaf (.lmfitMinimizer mm)) .nil))) = .ok t
          ∧ t.length = (augment_lmfit_modelresult m).length
          ∧ extract pybroomRegistry "[1]" (.lmfitMinimizer mm) .augment = .ok []
          ∧ ∀ r ∈ t, getCell r (pathColName 0) = some (Value.int 0)) := by
  constructor
  · intro reg path o v a hres hv
    unfold extract
    rw [hres]
    show (match viewOp a v with
        | none => (Except.ok [] : Except WalkError Table)
        | some f => Except.ok (f o)) = Except.ok []
    rw [hv]
  · intro m mm hclean
    have hguard : ¬ pathColName 0 ∈ mergedColsOf
        [(Value.int 0, augment_lmfit_modelresult m),
         (Value.int 1, ([] : Table))] := by
      intro hmem
      have hM : mergedColsOf
          [(Value.int 0, augment_lmfit_modelresult m),
           (Value.int 1, ([] : Table))]
          = tableCols (augment_lmfit_modelresult m) := by
        show mergedCols [augment_lmfit_modelresult m, []] = _
        rw [mergedCols_cons, mergedCols_cons,
          show tableCols ([] : Table) = [] from rfl,
          show mergedCols ([] : List Table) = [] from rfl]
        rw [unionCols_nil_right, unionCols_nil_right]
      rw [hM] at hmem
      have hb := augment_cols_benign hclean _ hmem
      rw [isPathCol_pathColName] at hb
      cases hb
    refine ⟨tagAssemble (pathColName 0)
        [(Value.int 0, augment_lmfit_modelresult m), (Value.int 1, [])],
      ?_, ?_, rfl, ?_⟩
    · show (walkSeq pybroomRegistry 0 "" View.augment 0
          (.cons (.leaf (.lmfitModel m))
            (.cons (.leaf (.lmfitMinimizer mm)) .nil))).bind
          (finishLevel 0 "") = _
      rw [show walkSeq pybroomRegistry 0 "" View.augment 0
          (.cons (.leaf (.lmfitModel m))
            (.cons (.leaf (.lmfitMinimizer mm)) .nil))
          = .ok [(Value.int 0, augment_lmfit_modelresult m), (Value.int 1, [])]
          from rfl]
      show finishLevel 0 "" _ = _
      unfold finishLevel
      rw [if_neg hguard]
    · rw [tagAssemble_length]
      simp
    · intro r hr
      obtain ⟨q, hq, r0, hr0, rfl⟩ := tagAssemble_mem hr
      rcases (by simpa using hq :
          q = (Value.int 0, augment_lmfit_modelresult m)
            ∨ q = (Value.int 1, ([] : Table))) with rfl | rfl
      · exact getCell_tag _ _ hguard
      · cases hr0

/-- Closed instance of C5 at the concrete fixtures. -/
theorem capability_absent_empty_witness :
    extract pybroomRegistry "" (.lmfitMinimizer fixtureMinimizer)
        View.augment = .ok []
    ∧ ∃ t, augment (.seq (.cons (.leaf (.lmfitModel fixtureModel))
          (.cons (.leaf (.lmfitMinimizer fixtureMinimizer)) .nil))) = .ok t
        ∧ t.length = (augment_lmfit_modelresult fixtureModel).length
        ∧ ∀ r ∈ t, getCell r (pathColName 0) = some (Value.int 0) := by
  refine ⟨capability_absent_empty.1 pybroomRegistry ""
      (.lmfitMinimizer fixtureMinimizer) View.augment
      lmfitMinimizerAdapter rfl rfl, ?_⟩
  obtain ⟨t, h1, h2, _, h4⟩ :=
    capability_absent_empty.2 fixtureModel fixtureMinimizer (by decide)
  exact ⟨t, h1, h2, h4⟩

theorem walkSeq_leaves (reg : List Adapter) (v : View)
    (objs : List ResultObj) (d : Nat) (p : String) (i : Nat)
    (h : ∀ o ∈ objs, supportedObj reg o = true) :
    walkSeq reg d p v i (.ofList (objs.map .leaf))
      = .ok (idxPairs (leafRows reg v) i objs) := by
  induction objs generalizing i with
  | nil => rfl
  | cons o objs ih =>
      rw [show InputList.ofList ((o :: objs).map .leaf)
          = .cons (.leaf o) (.ofList (objs.map .leaf)) from rfl]
      rw [walkSeq]
      have h1 : walk reg (d + 1) (p ++ "[" ++ Nat.repr i ++ "]") v (.leaf o)
          = .ok (leafRows reg v o) :=
        extract_ok_of_supported _ _ (h o (by simp))
      rw [h1, ih (i + 1) (fun o ho => h o (by simp [ho]))]
      rfl

theorem leafRows_glance_shape {o : ResultObj}
    (h : supportedObj pybroomRegistry o = true) :
    ∃ row, leafRows pybroomRegistry .glance o = [row]
      ∧ rowCols row = glanceCols := by
  cases o with
  | scipyOpt r => exact ⟨_, rfl, rfl⟩
  | lmfitModel r => exact ⟨_, rfl, rfl⟩
  | lmfitMinimizer r => exact ⟨_, rfl, rfl⟩
  | unknown s =>
      exact Bool.noConfusion
        ((show supportedObj pybroomRegistry (.unknown s) = false
          from rfl).symm.trans h)

theorem idxPairs_mem {f : ResultObj → Table} {i : Nat}
    {objs : List ResultObj} {q : Value × Table}
    (h : q ∈ idxPairs f i objs) : ∃ o ∈ objs, q.2 = f o := by
  induction objs generalizing i with
  | nil => cases h
  | cons o objs ih =>
      rw [idxPairs] at h
      rcases List.mem_cons.mp h with rfl | h
      · exact ⟨o, by simp, rfl⟩
      · obtain ⟨o', ho', he⟩ := ih h
        exact ⟨o', by simp [ho'], he⟩

theorem tagAssemble_path_values (name : String)
    (pairs : List (Value × Table)) (hname : ¬ name ∈ mergedColsOf pairs) :
    (tagAssemble name pairs).map (fun r => getCell r name)
      = (pairs.map (fun q => q.2.map (fun _ => some q.1))).flatten := by
  simp only [tagAssemble, List.map_flatten, List.map_map]
  congr 1
  apply List.map_congr_left
  intro q _
  show List.map (fun r => getCell r name)
      (List.map (fun r =>
        completeRow (mergedColsOf pairs) r ++ [(name, q.1)]) q.2)
    = List.map (fun _ => some q.1) q.2
  rw [List.map_map]
  apply List.map_congr_left
  intro r _
  exact getCell_tag _ _ hname

theorem idxPairs_glance_flatten (objs : List ResultObj) (i : Nat)
    (h : ∀ o ∈ objs, supportedObj pybroomRegistry o = true) :
    ((idxPairs (leafRows pybroomRegistry .glance) i objs).map
        (fun q => q.2.map (fun _ => some q.1))).flatten
      = (List.range' i objs.length).map (fun (j : Nat) => some (Value.int j)) := by
  induction objs generalizing i with
  | nil => rfl
  | cons o objs ih =>
      obtain ⟨row, hrow, _⟩ := leafRows_glance_shape (h o (by simp))
      rw [idxPairs, List.map_cons, List.flatten_cons, hrow,
        ih (i + 1) (fun o ho => h o (by simp [ho]))]
      rfl

theorem idxPairs_glance_guard (objs : List ResultObj) (i : Nat)
    (h : ∀ o ∈ objs, supportedObj pybroomRegistry o = true) :
    ¬ pathColName 0 ∈ mergedColsOf
        (idxPairs (leafRows pybroomRegistry .glance) i objs) := by
  intro hmem
  obtain ⟨tb, htb, hc⟩ := mem_mergedCols.mp hmem
  obtain ⟨q, hq, rfl⟩ := List.mem_map.mp htb
  obtain ⟨o, ho, he⟩ := idxPairs_mem hq
  obtain ⟨row, hrow, hcols⟩ := leafRows_glance_shape (h o ho)
  rw [he, hrow, tableCols_cons,
    show tableCols ([] : Table) = [] from rfl,
    unionCols_nil_right, hcols] at hc
  exact (by decide : ¬ pathColName 0 ∈ glanceCols) hc

/-- C3: for every sequence of N supported result objects, the summary
view succeeds with exactly N rows and appends an integer path column
holding the 0-based positions 0..N-1 in traversal order; the row coming
from the element at position i is tagged with exactly i. -/
theorem glance_seq_rows_and_path (objs : List ResultObj)
    (h : ∀ o ∈ objs, supportedObj pybroomRegistry o = true) :
    ∃ t, glance (.seq (.ofList (objs.map .leaf))) = .ok t
      ∧ t.length = objs.length
      ∧ t.map (fun r => getCell r (pathColName 0))
          = (List.range objs.length).map (fun (j : Nat) => some (Value.int j)) := by
  have hw := walkSeq_leaves pybroomRegistry View.glance objs 0 "" 0 h
  have hguard := idxPairs_glance_guard objs 0 h
  have hvals := tagAssemble_path_values (pathColName 0)
    (idxPairs (leafRows pybroomRegistry .glance) 0 objs) hguard
  rw [idxPairs_glance_flatten objs 0 h] at hvals
  refine ⟨tagAssemble (pathColName 0)
      (idxPairs (leafRows pybroomRegistry .glance) 0 objs), ?_, ?_, ?_⟩
  · show (walkSeq pybroomRegistry 0 "" View.glance 0
        (.ofList (objs.map .leaf))).bind (finishLevel 0 "") = _
    rw [hw]
    show finishLevel 0 "" _ = _
    unfold finishLevel
    rw [if_neg hguard]
  · have hlen := congrArg List.length hvals
    rw [List.length_map, List.length_map, List.length_range'] at hlen
    exact hlen
  · rw [hvals, List.range_eq_range']

/-- Closed instance of C3 at a two-element sequence of fixtures. -/
theorem glance_seq_rows_and_path_witness :
    ∃ t, glance (.seq (.ofList ([ResultObj.scipyOpt fixtureScipy,
        ResultObj.lmfitMinimizer fixtureMinimizer].map .leaf))) = .ok t
      ∧ t.length = 2
      ∧ t.map (fun r => getCell r (pathColName 0))
          = (List.range 2).map (fun (j : Nat) => some (Value.int j)) := by
  obtain ⟨t, h1, h2, h3⟩ := glance_seq_rows_and_path
    [ResultObj.scipyOpt fixtureScipy, ResultObj.lmfitMinimizer fixtureMinimizer]
    (by decide)
  exact ⟨t, h1, h2.trans rfl, h3⟩

theorem glance_cols_benign {c : String} (hc : c ∈ glanceCols) :
    isPathCol c = false := by
  rcases (by simpa [glanceCols] using hc :
      c = "method" ∨ c = "num_iter" ∨ c = "chisqr" ∨ c = "success"
        ∨ c = "message") with rfl | rfl | rfl | rfl | rfl <;> decide

theorem tidy_cols_benign (ps : List Param) :
    ∀ c ∈ tableCols (ps.map paramRow), isPathCol c = false := by
  intro c hc
  obtain ⟨r, hr, hcr⟩ := mem_tableCols.mp hc
  obtain ⟨p, hp, rfl⟩ := List.mem_map.mp hr
  rw [show rowCols (paramRow p) = tidyCols from rfl] at hcr
  rcases (by simpa [tidyCols] using hcr :
      c = "name" ∨ c = "value" ∨ c = "stderr" ∨ c = "min" ∨ c = "max"
        ∨ c = "vary" ∨ c = "init_value") with
    rfl | rfl | rfl | rfl | rfl | rfl | rfl <;> decide

theorem leafRows_cols_benign (o : ResultObj) (v : View)
    (hclean : cleanInput (.leaf o) = true) :
    ∀ c ∈ tableCols (leafRows pybroomRegistry v o), isPathCol c = false := by
  cases o with
  | scipyOpt r =>
      cases v with
      | glance =>
          intro c hc
          rw [show leafRows pybroomRegistry .glance (.scipyOpt r)
              = [glanceRow r.method r.num_iter r.chisqr r.success r.message]
              from rfl, tableCols_cons,
            show tableCols ([] : Table) = [] from rfl,
            unionCols_nil_right] at hc
          exact glance_cols_benign hc
      | tidy =>
          exact tidy_cols_benign r.params
      | augment =>
          intro c hc
          cases hc
  | lmfitModel m =>
      cases v with
      | glance =>
          intro c hc
          rw [show leafRows pybroomRegistry .glance (.lmfitModel m)
              = [glanceRow m.method m.num_iter m.chisqr m.success m.message]
              from rfl, tableCols_cons,
            show tableCols ([] : Table) = [] from rfl,
            unionCols_nil_right] at hc
          exact glance_cols_benign hc
      | tidy =>
          exact tidy_cols_benign m.params
      | augment =>
          exact augment_cols_benign (by simpa [cleanInput] using hclean)
  | lmfitMinimizer r =>
      cases v with
      | glance =>
          intro c hc
          rw [show leafRows pybroomRegistry .glance (.lmfitMinimizer r)
              = [glanceRow r.method r.num_iter r.chisqr r.success r.message]
              from rfl, tableCols_cons,
            show tableCols ([] : Table) = [] from rfl,
            unionCols_nil_right] at hc
          exact glance_cols_benign hc
      | tidy =>
          exact tidy_cols_benign r.params
      | augment =>
          intro c hc
          cases hc
  | unknown s =>
      intro c hc
      cases hc

theorem tableCols_tagAssemble_sub {name : String}
    {pairs : List (Value × Table)} {c : String}
    (hc : c ∈ tableCols (tagAssemble name pairs)) :
    c ∈ mergedColsOf pairs ∨ c = name := by
  obtain ⟨r, hr, hcr⟩ := mem_tableCols.mp hc
  obtain ⟨q, _, r0, _, rfl⟩ := tagAssemble_mem hr
  rw [rowCols_append, rowCols_completeRow] at hcr
  rcases List.mem_append.mp hcr with h | h
  · exact Or.inl h
  · right
    simpa [rowCols] using h

theorem containsUnsupported_leaf_iff {reg : List Adapter} {o : ResultObj} :
    containsUnsupported reg (.leaf o) = false ↔ supportedObj reg o = true := by
  cases hb : supportedObj reg o <;> simp [containsUnsupported, hb]

theorem containsUnsupported_leaf_iff_true {reg : List Adapter} {o : ResultObj} :
    containsUnsupported reg (.leaf o) = true ↔ supportedObj reg o = false := by
  cases hb : supportedObj reg o <;> simp [containsUnsupported, hb]

mutual

theorem walk_total : ∀ (input : Input) (d : Nat) (p : String) (v : View),
    cleanInput input = true →
    containsUnsupported pybroomRegistry input = false →
    ∃ t, walk pybroomRegistry d p v input = .ok t
      ∧ ∀ c ∈ tableCols t,
          isPathCol c = false ∨ ∃ e, d ≤ e ∧ c = pathColName e
  | .leaf o, d, p, v => fun hc hu => by
      have hs : supportedObj pybroomRegistry o = true :=
        containsUnsupported_leaf_iff.mp hu
      refine ⟨leafRows pybroomRegistry v o, extract_ok_of_supported p v hs, ?_⟩
      intro c hcc
      exact Or.inl (leafRows_cols_benign o v hc c hcc)
  | .seq xs, d, p, v => fun hc hu => by
      obtain ⟨pairs, hw, hcols⟩ := walkSeq_total xs d p v 0 hc hu
      have hguard : ¬ pathColName d ∈ mergedColsOf pairs := by
        intro hmem
        obtain ⟨tb, htb, hct⟩ := mem_mergedCols.mp hmem
        obtain ⟨q, hq, rfl⟩ := List.mem_map.mp htb
        rcases hcols q hq _ hct with hb | ⟨e, he, heq⟩
        · rw [isPathCol_pathColName] at hb
          cases hb
        · have := pathColName_inj heq
          omega
      refine ⟨tagAssemble (pathColName d) pairs, ?_, ?_⟩
      · rw [walk_seq_eq, hw]
        show finishLevel d p pairs = _
        unfold finishLevel
        rw [if_neg hguard]
      · intro c hcc
        rcases tableCols_tagAssemble_sub hcc with hmem | rfl
        · obtain ⟨tb, htb, hct⟩ := mem_mergedCols.mp hmem
          obtain ⟨q, hq, rfl⟩ := List.mem_map.mp htb
          rcases hcols q hq _ hct with hb | ⟨e, he, heq⟩
          · exact Or.inl hb
          · exact Or.inr ⟨e, by omega, heq⟩
        · exact Or.inr ⟨d, Nat.le_refl d, rfl⟩
  | .map kvs, d, p, v => fun hc hu => by
      obtain ⟨pairs, hw, hcols⟩ := walkMap_total kvs d p v hc hu
      have hguard : ¬ pathColName d ∈ mergedColsOf pairs := by
        intro hmem
        obtain ⟨tb, htb, hct⟩ := mem_mergedCols.mp hmem
        obtain ⟨q, hq, rfl⟩ := List.mem_map.mp htb
        rcases hcols q hq _ hct with hb | ⟨e, he, heq⟩
        · rw [isPathCol_pathColName] at hb
          cases hb
        · have := pathColName_inj heq
          omega
      refine ⟨tagAssemble (pathColName d) pairs, ?_, ?_⟩
      · rw [walk_map_eq, hw]
        show finishLevel d p pairs = _
        unfold finishLevel
        rw [if_neg hguard]
      · intro c hcc
        rcases tableCols_tagAssemble_sub hcc with hmem | rfl
        · obtain ⟨tb, htb, hct⟩ := mem_mergedCols.mp hmem
          obtain ⟨q, hq, rfl⟩ := List.mem_map.mp htb
          rcases hcols q hq _ hct with hb | ⟨e, he, heq⟩
          · exact Or.inl hb
          · exact Or.inr ⟨e, by omega, heq⟩
        · exact Or.inr ⟨d, Nat.le_refl d, rfl⟩

theorem walkSeq_total : ∀ (xs : InputList) (d : Nat) (p : String) (v : View)
    (i : Nat),
    cleanInputSeq xs = true →
    containsUnsupportedSeq pybroomRegistry xs = false →
    ∃ pairs, walkSeq pybroomRegistry d p v i xs = .ok pairs
      ∧ ∀ q ∈ pairs, ∀ c ∈ tableCols q.2,
          isPathCol c = false ∨ ∃ e, d + 1 ≤ e ∧ c = pathColName e
  | .nil, d, p, v, i => fun _ _ => ⟨[], rfl, by intro q hq; cases hq⟩
  | .cons x xs, d, p, v, i => fun hc hu => by
      simp only [cleanInputSeq, Bool.and_eq_true] at hc
      simp only [containsUnsupportedSeq, Bool.or_eq_false_iff] at hu
      obtain ⟨t1, hx, hcols1⟩ :=
        walk_total x (d + 1) (p ++ "[" ++ Nat.repr i ++ "]") v hc.1 hu.1
      obtain ⟨pairs, hxs, hcols⟩ := walkSeq_total xs d p v (i + 1) hc.2 hu.2
      refine ⟨(Value.int i, t1) :: pairs, ?_, ?_⟩
      · rw [walkSeq, hx]
        show (walkSeq pybroomRegistry d p v (i + 1) xs).bind
            (fun rest => Except.ok ((Value.int i, t1) :: rest)) = _
        rw [hxs]
        rfl
      · intro q hq
        rcases List.mem_cons.mp hq with rfl | hq
        · exact hcols1
        · exact hcols q hq

theorem walkMap_total : ∀ (kvs : KVList) (d : Nat) (p : String) (v : View),
    cleanInputMap kvs = true →
    containsUnsupportedMap pybroomRegistry kvs = false →
    ∃ pairs, walkMap pybroomRegistry d p v kvs = .ok pairs
      ∧ ∀ q ∈ pairs, ∀ c ∈ tableCols q.2,
          isPathCol c = false ∨ ∃ e, d + 1 ≤ e ∧ c = pathColName e
  | .nil, d, p, v => fun _ _ => ⟨[], rfl, by intro q hq; cases hq⟩
  | .cons k x kvs, d, p, v => fun hc hu => by
      simp only [cleanInputMap, Bool.and_eq_true] at hc
      simp only [containsUnsupportedMap, Bool.or_eq_false_iff] at hu
      obtain ⟨t1, hx, hcols1⟩ :=
        walk_total x (d + 1) (p ++ "[" ++ keyStr k ++ "]") v hc.1 hu.1
      obtain ⟨pairs, hxs, hcols⟩ := walkMap_total kvs d p v hc.2 hu.2
      refine ⟨(k, t1) :: pairs, ?_, ?_⟩
      · rw [walkMap, hx]
        show (walkMap pybroomRegistry d p v kvs).bind
            (fun rest => Except.ok ((k, t1) :: rest)) = _
        rw [hxs]
        rfl
      · intro q hq
        rcases List.mem_cons.mp hq with rfl | hq
        · exact hcols1
        · exact hcols q hq

end

mutual

theorem unsupportedPaths_nil : ∀ (reg : List Adapter) (input : Input)
    (p : String),
    containsUnsupported reg input = false → unsupportedPaths reg p input = []
  | reg, .leaf o, p => fun h => by
      have hs := containsUnsupported_leaf_iff.mp h
      simp [unsupportedPaths, hs]
  | reg, .seq xs, p => fun h => unsupportedPathsSeq_nil reg xs p 0 h
  | reg, .map kvs, p => fun h => unsupportedPathsMap_nil reg kvs p h

theorem unsupportedPathsSeq_nil : ∀ (reg : List Adapter) (xs : InputList)
    (p : String) (i : Nat),
    containsUnsupportedSeq reg xs = false →
    unsupportedPathsSeq reg p i xs = []
  | reg, .nil, p, i => fun _ => rfl
  | reg, .cons x xs, p, i => fun h => by
      simp only [containsUnsupportedSeq, Bool.or_eq_false_iff] at h
      rw [unsupportedPathsSeq, unsupportedPaths_nil reg x _ h.1,
        unsupportedPathsSeq_nil reg xs p (i + 1) h.2]
      rfl

theorem unsupportedPathsMap_nil : ∀ (reg : List Adapter) (kvs : KVList)
    (p : String),
    containsUnsupportedMap reg kvs = false →
    unsupportedPathsMap reg p kvs = []
  | reg, .nil, p => fun _ => rfl
  | reg, .cons k x kvs, p => fun h => by
      simp only [containsUnsupportedMap, Bool.or_eq_false_iff] at h
      rw [unsupportedPathsMap, unsupportedPaths_nil reg x _ h.1,
        unsupportedPathsMap_nil reg kvs p h.2]
      rfl

end

mutual

theorem walk_unsupported_err : ∀ (input : Input) (d : Nat) (p : String)
    (v : View),
    cleanInput input = true →
    containsUnsupported pybroomRegistry input = true →
    ∃ q, walk pybroomRegistry d p v input = .error (.unsupportedKind q)
      ∧ (unsupportedPaths pybroomRegistry p input).head? = some q
  | .leaf o, d, p, v => fun _ hu => by
      have hs := containsUnsupported_leaf_iff_true.mp hu
      refine ⟨p, extract_error_of_unsupported p v hs, ?_⟩
      simp [unsupportedPaths, hs]
  | .seq xs, d, p, v => fun hc hu => by
      obtain ⟨q, hw, hh⟩ := walkSeq_unsupported_err xs d p v 0 hc hu
      refine ⟨q, ?_, hh⟩
      rw [walk_seq_eq, hw]
      rfl
  | .map kvs, d, p, v => fun hc hu => by
      obtain ⟨q, hw, hh⟩ := walkMap_unsupported_err kvs d p v hc hu
      refine ⟨q, ?_, hh⟩
      rw [walk_map_eq, hw]
      rfl

theorem walkSeq_unsupported_err : ∀ (xs : InputList) (d : Nat) (p : String)
    (v : View) (i : Nat),
    cleanInputSeq xs = true →
    containsUnsupportedSeq pybroomRegistry xs = true →
    ∃ q, walkSeq pybroomRegistry d p v i xs = .error (.unsupportedKind q)
      ∧ (unsupportedPathsSeq pybroomRegistry p i xs).head? = some q
  | .nil, d, p, v, i => fun _ h => Bool.noConfusion h
  | .cons x xs, d, p, v, i => fun hc hu => by
      simp only [cleanInputSeq, Bool.and_eq_true] at hc
      cases hx : containsUnsupported pybroomRegistry x with
      | true =>
          obtain ⟨q, hw, hh⟩ := walk_unsupported_err x (d + 1)
            (p ++ "[" ++ Nat.repr i ++ "]") v hc.1 hx
          refine ⟨q, ?_, ?_⟩
          · rw [walkSeq, hw]
            rfl
          · rw [unsupportedPathsSeq]
            cases hpx : unsupportedPaths pybroomRegistry
                (p ++ "[" ++ Nat.repr i ++ "]") x with
            | nil => rw [hpx] at hh; cases hh
            | cons a l =>
                rw [hpx] at hh
                simpa using hh
      | false =>
          have hus : containsUnsupportedSeq pybroomRegistry xs = true := by
            have := hu
            simp only [containsUnsupportedSeq, hx, Bool.false_or] at this
            exact this
          obtain ⟨t1, hxok, _⟩ := walk_total x (d + 1)
            (p ++ "[" ++ Nat.repr i ++ "]") v hc.1 hx
          obtain ⟨q, hw, hh⟩ := walkSeq_unsupported_err xs d p v (i + 1)
            hc.2 hus
          refine ⟨q, ?_, ?_⟩
          · rw [walkSeq, hxok]
            show (walkSeq pybroomRegistry d p v (i + 1) xs).bind _ = _
            rw [hw]
            rfl
          · rw [unsupportedPathsSeq,
              unsupportedPaths_nil pybroomRegistry x _ hx]
            simpa using hh

theorem walkMap_unsupported_err : ∀ (kvs : KVList) (d : Nat) (p : String)
    (v : View),
    cleanInputMap kvs = true →
    containsUnsupportedMap pybroomRegistry kvs = true →
    ∃ q, walkMap pybroomRegistry d p v kvs = .error (.unsupportedKind q)
      ∧ (unsupportedPathsMap pybroomRegistry p kvs).head? = some q
  | .nil, d, p, v => fun _ h => Bool.noConfusion h
  | .cons k x kvs, d, p, v => fun hc hu => by
      simp only [cleanInputMap, Bool.and_eq_true] at hc
      cases hx : containsUnsupported pybroomRegistry x with
      | true =>
          obtain ⟨q, hw, hh⟩ := walk_unsupported_err x (d + 1)
            (p ++ "[" ++ keyStr k ++ "]") v hc.1 hx
          refine ⟨q, ?_, ?_⟩
          · rw [walkMap, hw]
            rfl
          · rw [unsupportedPathsMap]
            cases hpx : unsupportedPaths pybroomRegistry
                (p ++ "[" ++ keyStr k ++ "]") x with
            | nil => rw [hpx] at hh; cases hh
            | cons a l =>
                rw [hpx] at hh
                simpa using hh
      | false =>
          have hus : containsUnsupportedMap pybroomRegistry kvs = true := by
            have := hu
            simp only [containsUnsupportedMap, hx, Bool.false_or] at this
            exact this
          obtain ⟨t1, hxok, _⟩ := walk_total x (d + 1)
            (p ++ "[" ++ keyStr k ++ "]") v hc.1 hx
          obtain ⟨q, hw, hh⟩ := walkMap_unsupported_err kvs d p v hc.2 hus
          refine ⟨q, ?_, ?_⟩
          · rw [walkMap, hxok]
            show (walkMap pybroomRegistry d p v kvs).bind _ = _
            rw [hw]
            rfl
          · rw [unsupportedPathsMap,
              unsupportedPaths_nil pybroomRegistry x _ hx]
            simpa using hh

end

mutual

theorem walk_err_names_path : ∀ (input : Input) (reg : List Adapter)
    (d : Nat) (p : String) (v : View) (q : String),
    walk reg d p v input = .error (.unsupportedKind q) →
    q ∈ unsupportedPaths reg p input
  | .leaf o, reg, d, p, v, q => fun h => by
      have h' : extract reg p o v = .error (.unsupportedKind q) := h
      unfold extract at h'
      cases hres : resolve reg o with
      | none =>
          rw [hres] at h'
          cases h'
          simp [unsupportedPaths, supportedObj, hres]
      | some a =>
          rw [hres] at h'
          revert h'
          show (match viewOp a v with
              | none => (Except.ok [] : Except WalkError Table)
              | some f => Except.ok (f o))
            = .error (.unsupportedKind q) → _
          cases hv : viewOp a v <;> intro h' <;> cases h'
  | .seq xs, reg, d, p, v, q => fun h => by
      rw [walk_seq_eq] at h
      cases hw : walkSeq reg d p v 0 xs with
      | error e =>
          rw [hw] at h
          have he : e = .unsupportedKind q := by
            cases h
            rfl
          subst he
          exact walkSeq_err_names_path xs reg d p v 0 q hw
      | ok pairs =>
          rw [hw] at h
          have h2 : finishLevel d p pairs = .error (.unsupportedKind q) := h
          unfold finishLevel at h2
          split_ifs at h2 <;> cases h2
  | .map kvs, reg, d, p, v, q => fun h => by
      rw [walk_map_eq] at h
      cases hw : walkMap reg d p v kvs with
      | error e =>
          rw [hw] at h
          have he : e = .unsupportedKind q := by
            cases h
            rfl
          subst he
          exact walkMap_err_names_path kvs reg d p v q hw
      | ok pairs =>
          rw [hw] at h
          have h2 : finishLevel d p pairs = .error (.unsupportedKind q) := h
          unfold finishLevel at h2
          split_ifs at h2 <;> cases h2

theorem walkSeq_err_names_path : ∀ (xs : InputList) (reg : List Adapter)
    (d : Nat) (p : String) (v : View) (i : Nat) (q : String),
    walkSeq reg d p v i xs = .error (.unsupportedKind q) →
    q ∈ unsupportedPathsSeq reg p i xs
  | .nil, reg, d, p, v, i, q => fun h => by cases h
  | .cons x xs, reg, d, p, v, i, q => fun h => by
      rw [walkSeq] at h
      cases hx : walk reg (d + 1) (p ++ "[" ++ Nat.repr i ++ "]") v x with
      | error e =>
          rw [hx] at h
          have he : e = .unsupportedKind q := by
            cases h
            rfl
          subst he
          rw [unsupportedPathsSeq]
          exact List.mem_append_left _
            (walk_err_names_path x reg (d + 1) _ v q hx)
      | ok t1 =>
          rw [hx] at h
          have h2 : (walkSeq reg d p v (i + 1) xs).bind
              (fun rest => Except.ok ((Value.int i, t1) :: rest))
              = .error (.unsupportedKind q) := h
          cases hxs : walkSeq reg d p v (i + 1) xs with
          | error e =>
              rw [hxs] at h2
              have he : e = .unsupportedKind q := by
                cases h2
                rfl
              subst he
              rw [unsupportedPathsSeq]
              exact List.mem_append_right _
                (walkSeq_err_names_path xs reg d p v (i + 1) q hxs)
          | ok rest =>
              rw [hxs] at h2
              cases h2

theorem walkMap_err_names_path : ∀ (kvs : KVList) (reg : List Adapter)
    (d : Nat) (p : String) (v : View) (q : String),
    walkMap reg d p v kvs = .error (.unsupportedKind q) →
    q ∈ unsupportedPathsMap reg p kvs
  | .nil, reg, d, p, v, q => fun h => by cases h
  | .cons k x kvs, reg, d, p, v, q => fun h => by
      rw [walkMap] at h
      cases hx : walk reg (d + 1) (p ++ "[" ++ keyStr k ++ "]") v x with
      | error e =>
          rw [hx] at h
          have he : e = .unsupportedKind q := by
            cases h
            rfl
          subst he
          rw [unsupportedPathsMap]
          exact List.mem_append_left _
            (walk_err_names_path x reg (d + 1) _ v q hx)
      | ok t1 =>
          rw [hx] at h
          have h2 : (walkMap reg d p v kvs).bind
              (fun rest => Except.ok ((k, t1) :: rest))
              = .error (.unsupportedKind q) := h
          cases hkvs : walkMap reg d p v kvs with
          | error e =>
              rw [hkvs] at h2
              have he : e = .unsupportedKind q := by
                cases h2
                rfl
              subst he
              rw [unsupportedPathsMap]
              exact List.mem_append_right _
                (walkMap_err_names_path kvs reg d p v q hkvs)
          | ok rest =>
              rw [hkvs] at h2
              cases h2

end

/-- C6: an input containing a leaf matched by no registered adapter
fails with the reported, catchable unsupported-kind condition (an
`Except` error value, not an abort), whose payload names the offending
leaf's path within the nested input; any unsupported-kind error names
the path of an actual unsupported leaf, and the third element of a
sequence is reported as "[2]". -/
theorem unsupported_kind_reported :
    (∀ (input : Input) (v : View),
        cleanInput input = true →
        containsUnsupported pybroomRegistry input = true →
        ∃ q, walk pybroomRegistry 0 "" v input = .error (.unsupportedKind q)
          ∧ (unsupportedPaths pybroomRegistry "" input).head? = some q)
    ∧ (∀ (input : Input) (reg : List Adapter) (d : Nat) (p : String)
        (v : View) (q : String),
        walk reg d p v input = .error (.unsupportedKind q) →
        q ∈ unsupportedPaths reg p input)
    ∧ tidy (.seq (.ofList [.leaf (.scipyOpt fixtureScipy),
        .leaf (.scipyOpt fixtureScipy), .leaf (.unknown "Foo")]))
        = .error (.unsupportedKind "[2]") := by
  refine ⟨?_, ?_, by decide⟩
  · intro input v hc hu
    exact walk_unsupported_err input 0 "" v hc hu
  · intro input reg d p v q h
    exact walk_err_names_path input reg d p v q h

/-- Closed instance of C6: a sequence whose second element is
unsupported fails with the unsupported-kind error naming "[1]". -/
theorem unsupported_kind_reported_witness :
    ∃ q, walk pybroomRegistry 0 "" View.glance
        (.seq (.cons (.leaf (.scipyOpt fixtureScipy))
          (.cons (.leaf (.unknown "Bar")) .nil)))
        = .error (.unsupportedKind q)
      ∧ (unsupportedPaths pybroomRegistry ""
          (.seq (.cons (.leaf (.scipyOpt fixtureScipy))
            (.cons (.leaf (.unknown "Bar")) .nil)))).head? = some q :=
  unsupported_kind_reported.1
    (.seq (.cons (.leaf (.scipyOpt fixtureScipy))
      (.cons (.leaf (.unknown "Bar")) .nil)))
    View.glance (by decide) (by decide)

theorem tagAssemble_eq_assembleWith (name : String)
    (pairs : List (Value × Table)) :
    tagAssemble name pairs = assembleWith (mergedColsOf pairs) name pairs := rfl

theorem getCell_pathCells {n : String} (hn : isPathCol n = true) (r : Row) :
    getCell (pathCells r) n = getCell r n := by
  induction r with
  | nil => rfl
  | cons q r ih =>
      obtain ⟨m, v⟩ := q
      by_cases hm : isPathCol m
      · rw [show pathCells ((m, v) :: r) = (m, v) :: pathCells r from by
          simp [pathCells, hm]]
        show (if m = n then some v else getCell (pathCells r) n)
          = (if m = n then some v else getCell r n)
        rw [ih]
      · have hmn : ¬ m = n := by
          intro e
          rw [e, hn] at hm
          exact hm rfl
        rw [show pathCells ((m, v) :: r) = pathCells r from by
          simp [pathCells, hm]]
        show getCell (pathCells r) n = (if m = n then some v else getCell r n)
        rw [if_neg hmn, ih]

theorem pathCells_eq_nil {r : Row}
    (h : ∀ q ∈ r, isPathCol q.1 = false) : pathCells r = [] := by
  rw [pathCells, List.filter_eq_nil_iff]
  intro q hq
  simp [h q hq]

theorem mem_rowCols_pathCells {n : String} {r : Row}
    (h : n ∈ rowCols (pathCells r)) :
    n ∈ rowCols r ∧ isPathCol n = true := by
  obtain ⟨q, hq, rfl⟩ := List.mem_map.mp h
  have := List.mem_filter.mp hq
  exact ⟨List.mem_map.mpr ⟨q, this.1, rfl⟩, this.2⟩

theorem pathCells_nodup {r : Row} (h : (rowCols r).Nodup) :
    (rowCols (pathCells r)).Nodup := by
  have hs : (pathCells r).Sublist r := List.filter_sublist r
  exact List.Nodup.sublist (hs.map Prod.fst) h

theorem pathCells_completeRow (M : List String) (r : Row) :
    pathCells (completeRow M r)
      = (M.filter (fun s => isPathCol s)).map
          (fun n => (n, (getCell r n).getD Value.NA)) := by
  show List.filter _ (M.map _) = _
  rw [List.filter_map]
  rfl

theorem pathCells_tag {name : String} (hpath : isPathCol name = true)
    (M : List String) (k : Value) (r : Row) :
    pathCells (completeRow M r ++ [(name, k)])
      = comboLift M name k (pathCells r) := by
  have h1 : pathCells (completeRow M r ++ [(name, k)])
      = pathCells (completeRow M r) ++ pathCells [(name, k)] :=
    List.filter_append _ _
  rw [h1, pathCells_completeRow]
  unfold comboLift
  congr 1
  · apply List.map_congr_left
    intro n hn
    have hp : isPathCol n = true := (List.mem_filter.mp hn).2
    rw [getCell_pathCells hp]
  · show pathCells [(name, k)] = [(name, k)]
    simp [pathCells, hpath]

theorem unionCols_nodup {as bs : List String}
    (ha : as.Nodup) (hb : bs.Nodup) : (unionCols as bs).Nodup := by
  unfold unionCols
  refine List.Nodup.append ha (hb.filter _) ?_
  intro c hca hcb
  have := (List.mem_filter.mp hcb).2
  simp at this
  exact this hca

theorem tableCols_nodup {t : Table}
    (h : ∀ r ∈ t, (rowCols r).Nodup) : (tableCols t).Nodup := by
  induction t with
  | nil => exact List.nodup_nil
  | cons r t ih =>
      rw [tableCols_cons]
      exact unionCols_nodup (h r (by simp))
        (ih (fun x hx => h x (by simp [hx])))

theorem mergedCols_nodup {ts : List Table}
    (h : ∀ tb ∈ ts, ∀ r ∈ tb, (rowCols r).Nodup) :
    (mergedCols ts).Nodup := by
  induction ts with
  | nil => exact List.nodup_nil
  | cons tb ts ih =>
      rw [mergedCols_cons]
      exact unionCols_nodup (tableCols_nodup (h tb (by simp)))
        (ih (fun x hx => h x (by simp [hx])))

theorem row_ext : ∀ {c c' : Row},
    rowCols c = rowCols c' → (rowCols c).Nodup →
    (∀ n ∈ rowCols c, getCell c n = getCell c' n) → c = c'
  | [], c', hcols, _, _ => by
      have : rowCols c' = [] := hcols.symm
      cases c' with
      | nil => rfl
      | cons q c' => cases this
  | (n, v) :: c, c', hcols, hnd, hvals => by
      cases c' with
      | nil => cases hcols
      | cons q' c'' =>
          obtain ⟨n', v'⟩ := q'
          have hn : n = n' := by
            have := hcols
            simp only [rowCols, List.map_cons, List.cons.injEq] at this
            exact this.1
          subst hn
          have hv : v = v' := by
            have := hvals n (show n ∈ n :: rowCols c from
              List.mem_cons_self _ _)
            simp only [getCell, if_pos rfl] at this
            cases this
            rfl
          subst hv
          have hrest : c = c'' := by
            apply row_ext
            · have := hcols
              simp only [rowCols, List.map_cons, List.cons.injEq] at this
              exact this.2
            · exact (List.nodup_cons.mp (by simpa [rowCols] using hnd)).2
            · intro m hm
              have hmn : ¬ n = m := by
                intro e
                subst e
                exact (List.nodup_cons.mp
                  (by simpa [rowCols] using hnd)).1 hm
              have := hvals m (show m ∈ n :: rowCols c from
                List.mem_cons_of_mem _ hm)
              simpa [getCell, hmn] using this
          rw [hrest]

theorem rowCols_comboLift (M : List String) (name : String) (k : Value)
    (c : Row) :
    rowCols (comboLift M name k c)
      = M.filter (fun s => isPathCol s) ++ [name] := by
  simp [comboLift, rowCols, List.map_map, Function.comp_def]

theorem getLast?_comboLift (M : List String) (name : String) (k : Value)
    (c : Row) :
    (comboLift M name k c).getLast? = some (name, k) := by
  unfold comboLift
  exact List.getLast?_concat _

theorem getCell_map_assoc {L : List String} {n : String}
    (g : String → Value) (hn : n ∈ L) :
    getCell (L.map (fun m => (m, g m))) n = some (g n) := by
  induction L with
  | nil => cases hn
  | cons m L ih =>
      by_cases hm : m = n
      · subst hm
        show (if m = m then some (g m) else _) = _
        rw [if_pos rfl]
      · have hn' : n ∈ L := by
          rcases List.mem_cons.mp hn with e | e
          · exact absurd e.symm hm
          · exact e
        show (if m = n then some (g m) else
          getCell (L.map (fun m => (m, g m))) n) = _
        rw [if_neg hm]
        exact ih hn'

theorem getCell_comboLift {M : List String} {name : String} {k : Value}
    {c : Row} {n : String} (hn : n ∈ M.filter (fun s => isPathCol s)) :
    getCell (comboLift M name k c) n
      = some ((getCell c n).getD Value.NA) := by
  unfold comboLift
  exact getCell_append_left _
    (getCell_map_assoc (fun m => (getCell c m).getD Value.NA) hn)

theorem comboLift_inj {M : List String} {name : String} {k k' : Value}
    {c c' : Row} {pcols : List String}
    (hc : rowCols c = pcols) (hc' : rowCols c' = pcols)
    (hnd : pcols.Nodup)
    (hsub : ∀ n ∈ pcols, n ∈ M.filter (fun s => isPathCol s))
    (h : comboLift M name k c = comboLift M name k' c') :
    c = c' ∧ k = k' := by
  have hk : k = k' := by
    have h1 := getLast?_comboLift M name k c
    rw [h, getLast?_comboLift] at h1
    cases h1
    rfl
  subst hk
  refine ⟨?_, rfl⟩
  apply row_ext (hc.trans hc'.symm) (hc ▸ hnd)
  intro n hn
  rw [hc] at hn
  obtain ⟨v, hv⟩ := getCell_some_of_mem_rowCols (hc ▸ hn)
  obtain ⟨v', hv'⟩ := getCell_some_of_mem_rowCols (hc' ▸ hn)
  have h1 := @getCell_comboLift M name k c n (hsub n hn)
  have h2 := @getCell_comboLift M name k c' n (hsub n hn)
  rw [h] at h1
  have h3 := h1.symm.trans h2
  rw [hv, hv'] at h3
  simp only [Option.getD_some, Option.some.injEq] at h3
  rw [hv, hv', h3]

theorem expand_map (segs : List (Row × Nat)) (g : Row → Row) :
    (segs.flatMap (fun s => List.replicate s.2 s.1)).map g
      = (segs.map (fun s => (g s.1, s.2))).flatMap
          (fun s => List.replicate s.2 s.1) := by
  induction segs with
  | nil => rfl
  | cons s segs ih =>
      simp only [List.flatMap_cons, List.map_append, List.map_cons, ih,
        List.map_replicate]

theorem expand_toFinset (segs : List (Row × Nat))
    (h : ∀ s ∈ segs, 0 < s.2) :
    (segs.flatMap (fun s => List.replicate s.2 s.1)).toFinset
      = (segs.map Prod.fst).toFinset := by
  induction segs with
  | nil => rfl
  | cons s segs ih =>
      simp only [List.flatMap_cons, List.toFinset_append, List.map_cons,
        List.toFinset_cons]
      rw [ih (fun x hx => h x (by simp [hx]))]
      have hpos : s.2 ≠ 0 := Nat.pos_iff_ne_zero.mp (h s (by simp))
      rw [List.toFinset_replicate_of_ne_zero hpos]
      ext a
      simp [or_comm]

theorem distinctCombos_of_tableOK {t : Table} {segs : List (Row × Nat)}
    (h : tableOK t segs) : distinctCombos t = segs.length := by
  obtain ⟨_, hnd, hpos, _, hexp⟩ := h
  unfold distinctCombos
  rw [hexp, expand_toFinset segs hpos, List.toFinset_card_of_nodup hnd,
    List.length_map]

theorem tableOK_combo_cols {t : Table} {segs : List (Row × Nat)}
    (h : tableOK t segs) {s : Row × Nat} (hs : s ∈ segs) :
    (∀ n ∈ rowCols s.1, n ∈ tableCols t ∧ isPathCol n = true)
    ∧ (rowCols s.1).Nodup := by
  obtain ⟨hrows, _, hpos, _, hexp⟩ := h
  have hmem : s.1 ∈ t.map pathCells := by
    rw [hexp, List.mem_flatMap]
    refine ⟨s, hs, ?_⟩
    rw [List.mem_replicate]
    exact ⟨Nat.pos_iff_ne_zero.mp (hpos s hs), rfl⟩
  obtain ⟨r, hr, hre⟩ := List.mem_map.mp hmem
  constructor
  · intro n hn
    rw [← hre] at hn
    obtain ⟨h1, h2⟩ := mem_rowCols_pathCells hn
    exact ⟨mem_tableCols_of_mem hr h1, h2⟩
  · rw [← hre]
    exact pathCells_nodup (hrows r hr)

theorem assembleWith_cons (M : List String) (name : String)
    (q : Value × Table) (pairs : List (Value × Table)) :
    assembleWith M name (q :: pairs)
      = q.2.map (fun r => completeRow M r ++ [(name, q.1)])
        ++ assembleWith M name pairs := by
  simp [assembleWith]

theorem assembleWith_length (M : List String) (name : String)
    (pairs : List (Value × Table)) :
    (assembleWith M name pairs).length
      = (pairs.map (fun q => q.2.length)).sum := by
  simp [assembleWith, Function.comp_def]

theorem assembleWith_OK (M : List String) (name : String)
    (hpath : isPathCol name = true) (hname : ¬ name ∈ M) (hM : M.Nodup) :
    ∀ (pairs : List (Value × Table)) (pss : List (List (Row × Nat))),
    List.Forall₂ (fun (q : Value × Table) segs => tableOK q.2 segs)
      pairs pss →
    (∀ q ∈ pairs, ∀ c ∈ tableCols q.2, c ∈ M) →
    (pairs.map Prod.fst).Nodup →
    ∃ segs, tableOK (assembleWith M name pairs) segs
      ∧ segs.length = (pss.map List.length).sum
      ∧ (∀ s ∈ segs, rowCols s.1
          = M.filter (fun s => isPathCol s) ++ [name])
      ∧ (∀ s ∈ segs, ∃ k, k ∈ pairs.map Prod.fst
          ∧ s.1.getLast? = some (name, k)) := by
  intro pairs pss hF
  induction hF with
  | nil =>
      intro _ _
      refine ⟨[], ⟨?_, List.nodup_nil, ?_, ⟨[], ?_⟩, rfl⟩, rfl, ?_, ?_⟩
      · intro r hr
        cases hr
      · intro s hs
        cases hs
      · intro s hs
        cases hs
      · intro s hs
        cases hs
      · intro s hs
        cases hs
  | @cons q chsegs pairs' pss' hqs hrest ih =>
      intro hsub hkeys
      obtain ⟨segsR, hOKr, hlenR, hcolsR, hlastR⟩ :=
        ih (fun x hx => hsub x (by simp [hx]))
          (List.nodup_cons.mp hkeys).2
      have hsubq : ∀ c ∈ tableCols q.2, c ∈ M :=
        hsub q (by simp)
      have hkey_not : ¬ q.1 ∈ pairs'.map Prod.fst :=
        (List.nodup_cons.mp hkeys).1
      obtain ⟨pcolsq, hpcq⟩ := hqs.2.2.2.1
      have hcombo_facts : ∀ s ∈ chsegs,
          (∀ n ∈ pcolsq, n ∈ M.filter (fun s => isPathCol s))
            ∧ pcolsq.Nodup := by
        intro s hs
        have hfacts := tableOK_combo_cols hqs hs
        constructor
        · intro n hn
          rw [← hpcq s hs] at hn
          obtain ⟨h1, h2⟩ := hfacts.1 n hn
          exact List.mem_filter.mpr ⟨hsubq n h1, h2⟩
        · rw [← hpcq s hs]
          exact hfacts.2
      refine ⟨chsegs.map (fun s => (comboLift M name q.1 s.1, s.2))
          ++ segsR, ⟨?_, ?_, ?_, ?_, ?_⟩, ?_, ?_, ?_⟩
      · -- rows have duplicate-free columns
        intro r hr
        rw [assembleWith_cons] at hr
        rcases List.mem_append.mp hr with hr | hr
        · obtain ⟨r0, _, rfl⟩ := List.mem_map.mp hr
          rw [rowCols_append, rowCols_completeRow]
          refine List.Nodup.append hM (by simp [rowCols]) ?_
          intro c hcM hcn
          rcases (by simpa [rowCols] using hcn : c = name) with rfl
          exact hname hcM
        · exact hOKr.1 r hr
      · -- segment combos are pairwise distinct
        rw [List.map_append]
        refine List.Nodup.append ?_ hOKr.2.1 ?_
        · rw [List.map_map]
          show (chsegs.map (fun s => comboLift M name q.1 s.1)).Nodup
          refine List.Nodup.map_on ?_ (List.Nodup.of_map _ hqs.2.1)
          intro x hx y hy he
          have hx1 : x.1 = y.1 :=
            (comboLift_inj (hpcq x hx) (hpcq y hy)
              (hcombo_facts x hx).2 (hcombo_facts x hx).1 he).1
          exact List.inj_on_of_nodup_map hqs.2.1 hx hy hx1
        · rw [List.map_map]
          intro a ha hb
          have ha' : a ∈ chsegs.map (fun s => comboLift M name q.1 s.1) := ha
          obtain ⟨s0, _, rfl⟩ := List.mem_map.mp ha'
          obtain ⟨s1, hs1, he1⟩ := List.mem_map.mp hb
          obtain ⟨k, hk, hlast⟩ := hlastR s1 hs1
          rw [he1, getLast?_comboLift] at hlast
          have hkq : k = q.1 := by
            cases hlast
            rfl
          rw [hkq] at hk
          exact hkey_not hk
      · -- positive counts
        intro s hs
        rcases List.mem_append.mp hs with hs | hs
        · obtain ⟨s0, hs0, rfl⟩ := List.mem_map.mp hs
          exact hqs.2.2.1 s0 hs0
        · exact hOKr.2.2.1 s hs
      · -- uniform combination shape
        refine ⟨M.filter (fun s => isPathCol s) ++ [name], ?_⟩
        intro s hs
        rcases List.mem_append.mp hs with hs | hs
        · obtain ⟨s0, _, rfl⟩ := List.mem_map.mp hs
          exact rowCols_comboLift M name q.1 s0.1
        · exact hcolsR s hs
      · -- the expansion equation
        rw [assembleWith_cons, List.map_append, List.flatMap_append]
        congr 1
        · have e1 : (q.2.map (fun r =>
              completeRow M r ++ [(name, q.1)])).map pathCells
              = (q.2.map pathCells).map (comboLift M name q.1) := by
            rw [List.map_map, List.map_map]
            apply List.map_congr_left
            intro r _
            exact pathCells_tag hpath M q.1 r
          rw [e1, hqs.2.2.2.2, expand_map]
        · exact hOKr.2.2.2.2
      · -- segment count
        rw [List.length_append, List.length_map, hlenR]
        rfl
      · -- explicit uniform shape
        intro s hs
        rcases List.mem_append.mp hs with hs | hs
        · obtain ⟨s0, _, rfl⟩ := List.mem_map.mp hs
          exact rowCols_comboLift M name q.1 s0.1
        · exact hcolsR s hs
      · -- every combo ends with its level key
        intro s hs
        rcases List.mem_append.mp hs with hs | hs
        · obtain ⟨s0, _, rfl⟩ := List.mem_map.mp hs
          exact ⟨q.1, by simp, getLast?_comboLift M name q.1 s0.1⟩
        · obtain ⟨k, hk, he⟩ := hlastR s hs
          exact ⟨k, by simp [hk], he⟩

theorem forall₂_mem_left {α β : Type} {R : α → β → Prop} :
    ∀ {l₁ : List α} {l₂ : List β}, List.Forall₂ R l₁ l₂ →
    ∀ a ∈ l₁, ∃ b, b ∈ l₂ ∧ R a b := by
  intro l₁ l₂ h
  induction h with
  | nil =>
      intro a ha
      cases ha
  | cons h₁ h₂ ih =>
      intro a ha
      rcases List.mem_cons.mp ha with rfl | ha
      · exact ⟨_, by simp, h₁⟩
      · obtain ⟨b, hb, hr⟩ := ih a ha
        exact ⟨b, by simp [hb], hr⟩

theorem extract_ok_inv {reg : List Adapter} {p : String} {o : ResultObj}
    {v : View} {t : Table} (h : extract reg p o v = .ok t) :
    t = leafRows reg v o := by
  unfold extract at h
  unfold leafRows
  cases hres : resolve reg o with
  | none =>
      rw [hres] at h
      cases h
  | some a =>
      rw [hres] at h
      have h' : (match viewOp a v with
          | none => (Except.ok [] : Except WalkError Table)
          | some f => Except.ok (f o)) = .ok t := h
      cases hv : viewOp a v with
      | none =>
          rw [hv] at h'
          cases h'
          show ([] : Table) = (match viewOp a v with
            | none => ([] : Table)
            | some f => f o)
          rw [hv]
      | some f =>
          rw [hv] at h'
          cases h'
          show f o = (match viewOp a v with
            | none => ([] : Table)
            | some f => f o)
          rw [hv]

theorem leafRows_rows_nodup (o : ResultObj) (v : View)
    (hclean : cleanInput (.leaf o) = true) :
    ∀ r ∈ leafRows pybroomRegistry v o, (rowCols r).Nodup := by
  have hg : ∀ (a : String) (b : Int) (c : Value) (d : Bool) (e : String),
      (rowCols (glanceRow a b c d e)).Nodup := by
    intro a b c d e
    rw [show rowCols (glanceRow a b c d e) = glanceCols from rfl]
    decide
  have hp : ∀ (pm : Param), (rowCols (paramRow pm)).Nodup := by
    intro pm
    rw [show rowCols (paramRow pm) = tidyCols from rfl]
    decide
  cases o with
  | scipyOpt r0 =>
      cases v with
      | glance =>
          intro r hr
          have hr2 : r ∈ [glanceRow r0.method r0.num_iter r0.chisqr
              r0.success r0.message] := hr
          have he : r = glanceRow r0.method r0.num_iter r0.chisqr
              r0.success r0.message := by simpa using hr2
          rw [he]
          exact hg _ _ _ _ _
      | tidy =>
          intro r hr
          obtain ⟨pm, _, rfl⟩ := List.mem_map.mp hr
          exact hp pm
      | augment =>
          intro r hr
          cases hr
  | lmfitModel m =>
      cases v with
      | glance =>
          intro r hr
          have hr2 : r ∈ [glanceRow m.method m.num_iter m.chisqr
              m.success m.message] := hr
          have he : r = glanceRow m.method m.num_iter m.chisqr
              m.success m.message := by simpa using hr2
          rw [he]
          exact hg _ _ _ _ _
      | tidy =>
          intro r hr
          obtain ⟨pm, _, rfl⟩ := List.mem_map.mp hr
          exact hp pm
      | augment =>
          intro r hr
          obtain ⟨pt, hpt, rfl⟩ := List.mem_map.mp hr
          rw [rowCols_pointRow]
          have hcm := cleanModel_spec (by simpa [cleanInput] using hclean)
            pt hpt
          refine List.Nodup.append (by decide) hcm.1 ?_
          intro c hcf hcc
          obtain ⟨cq, hcq, rfl⟩ := List.mem_map.mp hcc
          exact (hcm.2 cq hcq).2 hcf
  | lmfitMinimizer r0 =>
      cases v with
      | glance =>
          intro r hr
          have hr2 : r ∈ [glanceRow r0.method r0.num_iter r0.chisqr
              r0.success r0.message] := hr
          have he : r = glanceRow r0.method r0.num_iter r0.chisqr
              r0.success r0.message := by simpa using hr2
          rw [he]
          exact hg _ _ _ _ _
      | tidy =>
          intro r hr
          obtain ⟨pm, _, rfl⟩ := List.mem_map.mp hr
          exact hp pm
      | augment =>
          intro r hr
          cases hr
  | unknown s =>
      intro r hr
      cases hr

mutual

theorem walk_OK : ∀ (input : Input) (d : Nat) (p : String) (v : View)
    (t : Table),
    cleanInput input = true → wfInput input = true →
    walk pybroomRegistry d p v input = .ok t →
    ∃ segs, tableOK t segs
      ∧ t.length = sumLeafRows pybroomRegistry v input
      ∧ segs.length = contribLeaves pybroomRegistry v input
  | .leaf o, d, p, v, t => fun hc _ h => by
      have ht : t = leafRows pybroomRegistry v o := extract_ok_inv h
      subst ht
      have hb : ∀ r ∈ leafRows pybroomRegistry v o, pathCells r = [] := by
        intro r hr
        apply pathCells_eq_nil
        intro q hq
        exact leafRows_cols_benign o v hc _
          (mem_tableCols_of_mem hr (List.mem_map.mpr ⟨q, hq, rfl⟩))
      have hnodup := leafRows_rows_nodup o v hc
      by_cases he : leafRows pybroomRegistry v o = []
      · refine ⟨[], ⟨?_, List.nodup_nil, ?_, ⟨[], ?_⟩, ?_⟩, rfl, ?_⟩
        · intro r hr
          rw [he] at hr
          cases hr
        · intro s hs
          cases hs
        · intro s hs
          cases hs
        · rw [he]
          rfl
        · show 0 = contribLeaves pybroomRegistry v (.leaf o)
          rw [show contribLeaves pybroomRegistry v (.leaf o)
              = if (leafRows pybroomRegistry v o).length = 0 then 0 else 1
              from rfl]
          rw [if_pos (by rw [he]; rfl)]
      · refine ⟨[([], (leafRows pybroomRegistry v o).length)],
          ⟨hnodup, by simp, ?_, ⟨[], by simp [rowCols]⟩, ?_⟩, rfl, ?_⟩
        · intro s hs
          rcases (by simpa using hs :
              s = (([] : Row), (leafRows pybroomRegistry v o).length)) with rfl
          simpa [Nat.pos_iff_ne_zero] using
            fun hlen => he (List.length_eq_zero.mp hlen)
        · rw [List.flatMap_cons, List.flatMap_nil, List.append_nil]
          rw [List.eq_replicate_iff]
          refine ⟨by simp, ?_⟩
          intro b hb2
          obtain ⟨r, hr, rfl⟩ := List.mem_map.mp hb2
          exact hb r hr
        · show 1 = contribLeaves pybroomRegistry v (.leaf o)
          rw [show contribLeaves pybroomRegistry v (.leaf o)
              = if (leafRows pybroomRegistry v o).length = 0 then 0 else 1
              from rfl]
          rw [if_neg (fun hlen => he (List.length_eq_zero.mp hlen))]
  | .seq xs, d, p, v, t => fun hc hw h => by
      obtain ⟨pairs, hwseq, hguard, rfl⟩ := walk_seq_ok h
      obtain ⟨pss, hF, hsum, hcontrib, _, hkeys⟩ :=
        walkSeq_OK xs d p v 0 pairs hc hw hwseq
      have hrows : ∀ tb ∈ pairs.map Prod.snd, ∀ r ∈ tb,
          (rowCols r).Nodup := by
        intro tb htb r hr
        obtain ⟨qq, hqq, rfl⟩ := List.mem_map.mp htb
        obtain ⟨segsq, _, hOKq⟩ := forall₂_mem_left hF qq hqq
        exact hOKq.1 r hr
      have hMnodup : (mergedColsOf pairs).Nodup := mergedCols_nodup hrows
      have hsubM : ∀ qq ∈ pairs, ∀ c ∈ tableCols qq.2,
          c ∈ mergedColsOf pairs := fun qq hqq c hcc =>
        mem_mergedCols.mpr ⟨qq.2, List.mem_map.mpr ⟨qq, hqq, rfl⟩, hcc⟩
      obtain ⟨segs, hOK, hlen, _, _⟩ := assembleWith_OK (mergedColsOf pairs)
        (pathColName d) (isPathCol_pathColName d) hguard hMnodup pairs pss
        hF hsubM hkeys
      rw [tagAssemble_eq_assembleWith]
      refine ⟨segs, hOK, ?_, ?_⟩
      · rw [assembleWith_length, hsum]
        rfl
      · rw [hlen, hcontrib]
        rfl
  | .map kvs, d, p, v, t => fun hc hw h => by
      obtain ⟨pairs, hwmap, hguard, rfl⟩ := walk_map_ok h
      simp only [wfInput, Bool.and_eq_true, decide_eq_true_eq] at hw
      obtain ⟨pss, hF, hsum, hcontrib, hkeyeq⟩ :=
        walkMap_OK kvs d p v pairs hc hw.2 hwmap
      have hkeys : (pairs.map Prod.fst).Nodup := by
        rw [hkeyeq]
        exact hw.1
      have hrows : ∀ tb ∈ pairs.map Prod.snd, ∀ r ∈ tb,
          (rowCols r).Nodup := by
        intro tb htb r hr
        obtain ⟨qq, hqq, rfl⟩ := List.mem_map.mp htb
        obtain ⟨segsq, _, hOKq⟩ := forall₂_mem_left hF qq hqq
        exact hOKq.1 r hr
      have hMnodup : (mergedColsOf pairs).Nodup := mergedCols_nodup hrows
      have hsubM : ∀ qq ∈ pairs, ∀ c ∈ tableCols qq.2,
          c ∈ mergedColsOf pairs := fun qq hqq c hcc =>
        mem_mergedCols.mpr ⟨qq.2, List.mem_map.mpr ⟨qq, hqq, rfl⟩, hcc⟩
      obtain ⟨segs, hOK, hlen, _, _⟩ := assembleWith_OK (mergedColsOf pairs)
        (pathColName d) (isPathCol_pathColName d) hguard hMnodup pairs pss
        hF hsubM hkeys
      rw [tagAssemble_eq_assembleWith]
      refine ⟨segs, hOK, ?_, ?_⟩
      · rw [assembleWith_length, hsum]
        rfl
      · rw [hlen, hcontrib]
        rfl

theorem walkSeq_OK : ∀ (xs : InputList) (d : Nat) (p : String) (v : View)
    (i : Nat) (pairs : List (Value × Table)),
    cleanInputSeq xs = true → wfInputSeq xs = true →
    walkSeq pybroomRegistry d p v i xs = .ok pairs →
    ∃ pss, List.Forall₂
        (fun (q : Value × Table) segs => tableOK q.2 segs) pairs pss
      ∧ (pairs.map (fun q => q.2.length)).sum
          = sumLeafRowsSeq pybroomRegistry v xs
      ∧ (pss.map List.length).sum = contribLeavesSeq pybroomRegistry v xs
      ∧ (∀ k ∈ pairs.map Prod.fst, ∃ j : Nat, i ≤ j ∧ k = Value.int j)
      ∧ (pairs.map Prod.fst).Nodup
  | .nil, d, p, v, i, pairs => fun _ _ h => by
      cases h
      refine ⟨[], List.Forall₂.nil, rfl, rfl, ?_, List.nodup_nil⟩
      intro k hk
      cases hk
  | .cons x xs, d, p, v, i, pairs => fun hc hw h => by
      simp only [cleanInputSeq, Bool.and_eq_true] at hc
      simp only [wfInputSeq, Bool.and_eq_true] at hw
      rw [walkSeq] at h
      cases hx : walk pybroomRegistry (d + 1)
          (p ++ "[" ++ Nat.repr i ++ "]") v x with
      | error e => rw [hx] at h; cases h
      | ok t1 =>
          rw [hx] at h
          cases hrest : walkSeq pybroomRegistry d p v (i + 1) xs with
          | error e => rw [hrest] at h; cases h
          | ok rest =>
              rw [hrest] at h
              cases h
              obtain ⟨segs1, hOK1, hlen1, hcon1⟩ :=
                walk_OK x (d + 1) (p ++ "[" ++ Nat.repr i ++ "]") v t1
                  hc.1 hw.1 hx
              obtain ⟨pss, hF, hsum, hcontrib, hbound, hnd⟩ :=
                walkSeq_OK xs d p v (i + 1) rest hc.2 hw.2 hrest
              refine ⟨segs1 :: pss, List.Forall₂.cons hOK1 hF, ?_, ?_,
                ?_, ?_⟩
              · rw [List.map_cons, List.sum_cons, hsum, hlen1]
                rfl
              · rw [List.map_cons, List.sum_cons, hcontrib, hcon1]
                rfl
              · intro k hk
                rcases List.mem_cons.mp hk with rfl | hk
                · exact ⟨i, Nat.le_refl i, rfl⟩
                · obtain ⟨j, hj, rfl⟩ := hbound k hk
                  exact ⟨j, by omega, rfl⟩
              · rw [List.map_cons]
                refine List.nodup_cons.mpr ⟨?_, hnd⟩
                intro hmem
                obtain ⟨j, hj, he⟩ := hbound _ hmem
                have : (i : Int) = (j : Int) := by
                  injection he
                omega

theorem walkMap_OK : ∀ (kvs : KVList) (d : Nat) (p : String) (v : View)
    (pairs : List (Value × Table)),
    cleanInputMap kvs = true → wfInputMap kvs = true →
    walkMap pybroomRegistry d p v kvs = .ok pairs →
    ∃ pss, List.Forall₂
        (fun (q : Value × Table) segs => tableOK q.2 segs) pairs pss
      ∧ (pairs.map (fun q => q.2.length)).sum
          = sumLeafRowsMap pybroomRegistry v kvs
      ∧ (pss.map List.length).sum = contribLeavesMap pybroomRegistry v kvs
      ∧ pairs.map Prod.fst = kvsKeys kvs
  | .nil, d, p, v, pairs => fun _ _ h => by
      cases h
      exact ⟨[], List.Forall₂.nil, rfl, rfl, rfl⟩
  | .cons k x kvs, d, p, v, pairs => fun hc hw h => by
      simp only [cleanInputMap, Bool.and_eq_true] at hc
      simp only [wfInputMap, Bool.and_eq_true] at hw
      rw [walkMap] at h
      cases hx : walk pybroomRegistry (d + 1)
          (p ++ "[" ++ keyStr k ++ "]") v x with
      | error e => rw [hx] at h; cases h
      | ok t1 =>
          rw [hx] at h
          cases hrest : walkMap pybroomRegistry d p v kvs with
          | error e => rw [hrest] at h; cases h
          | ok rest =>
              rw [hrest] at h
              cases h
              obtain ⟨segs1, hOK1, hlen1, hcon1⟩ :=
                walk_OK x (d + 1) (p ++ "[" ++ keyStr k ++ "]") v t1
                  hc.1 hw.1 hx
              obtain ⟨pss, hF, hsum, hcontrib, hkeyeq⟩ :=
                walkMap_OK kvs d p v rest hc.2 hw.2 hrest
              refine ⟨segs1 :: pss, List.Forall₂.cons hOK1 hF, ?_, ?_, ?_⟩
              · rw [List.map_cons, List.sum_cons, hsum, hlen1]
                rfl
              · rw [List.map_cons, List.sum_cons, hcontrib, hcon1]
                rfl
              · rw [List.map_cons, hkeyeq]
                rfl

end

/-- C7 counterexample: in a two-leaf mixed collection under the
pointwise view both leaves are reached, but the capability-absent
minimizer contributes no rows, so the table shows one distinct
path-column combination while two leaf objects were reached — the
claim's "distinct combinations = leaf objects reached" fails. -/
theorem path_combos_cex :
    augment (.seq (.cons (.leaf (.lmfitModel fixtureModel))
        (.cons (.leaf (.lmfitMinimizer fixtureMinimizer)) .nil)))
      = .ok [[("x", Value.int 0), ("data", Value.int 1),
              ("best_fit", Value.int 1), ("residual", Value.int 0),
              ("key", Value.int 0)],
             [("x", Value.int 1), ("data", Value.int 2),
              ("best_fit", Value.int 2), ("residual", Value.int 0),
              ("key", Value.int 0)]]
    ∧ distinctCombos
        [[("x", Value.int 0), ("data", Value.int 1),
          ("best_fit", Value.int 1), ("residual", Value.int 0),
          ("key", Value.int 0)],
         [("x", Value.int 1), ("data", Value.int 2),
          ("best_fit", Value.int 2), ("residual", Value.int 0),
          ("key", Value.int 0)]] = 1
    ∧ leafCount (.seq (.cons (.leaf (.lmfitModel fixtureModel))
        (.cons (.leaf (.lmfitMinimizer fixtureMinimizer)) .nil))) = 2
    ∧ (1 : Nat) ≠ 2 := by
  refine ⟨by decide, by decide, by decide, by decide⟩

/-- C7 (amended): for every nested input on which a view succeeds, the
number of rows equals the sum over all leaf objects of the rows the
matched adapter produces for each, and the number of distinct
path-column combinations equals the number of leaf objects that
contribute at least one row (empty containers contribute zero rows and
zero combinations, since their row sums and contributing-leaf counts
are zero). -/
theorem rows_and_combos_invariant (input : Input) (v : View) (t : Table)
    (hc : cleanInput input = true) (hw : wfInput input = true)
    (h : walk pybroomRegistry 0 "" v input = .ok t) :
    t.length = sumLeafRows pybroomRegistry v input
    ∧ distinctCombos t = contribLeaves pybroomRegistry v input := by
  obtain ⟨segs, hOK, hlen, hcon⟩ := walk_OK input 0 "" v t hc hw h
  exact ⟨hlen, (distinctCombos_of_tableOK hOK).trans hcon⟩

/-- Closed instance of the amended C7 at the mixed two-leaf fixture. -/
theorem rows_and_combos_invariant_witness :
    ([[("x", Value.int 0), ("data", Value.int 1),
       ("best_fit", Value.int 1), ("residual", Value.int 0),
       ("key", Value.int 0)],
      [("x", Value.int 1), ("data", Value.int 2),
       ("best_fit", Value.int 2), ("residual", Value.int 0),
       ("key", Value.int 0)]] : Table).length
      = sumLeafRows pybroomRegistry .augment
          (.seq (.cons (.leaf (.lmfitModel fixtureModel))
            (.cons (.leaf (.lmfitMinimizer fixtureMinimizer)) .nil)))
    ∧ distinctCombos
        [[("x", Value.int 0), ("data", Value.int 1),
          ("best_fit", Value.int 1), ("residual", Value.int 0),
          ("key", Value.int 0)],
         [("x", Value.int 1), ("data", Value.int 2),
          ("best_fit", Value.int 2), ("residual", Value.int 0),
          ("key", Value.int 0)]]
      = contribLeaves pybroomRegistry .augment
          (.seq (.cons (.leaf (.lmfitModel fixtureModel))
            (.cons (.leaf (.lmfitMinimizer fixtureMinimizer)) .nil))) :=
  rows_and_combos_invariant
    (.seq (.cons (.leaf (.lmfitModel fixtureModel))
      (.cons (.leaf (.lmfitMinimizer fixtureMinimizer)) .nil)))
    .augment _ (by decide) (by decide) (by decide)

end Pybroom
